import Mathlib

/-!
Verification of the core of `minimizer` (src/main.rs): a memoized,
content-addressed tree transformation that minifies and compresses the html
blobs of a git tree, passes raster images through, prunes everything else,
and persists the memo cache as a deterministic tab-separated file.

The embedding models `git2::Oid` (ContentId) as `Nat`, file names as
character lists, the `BTreeMap`-backed cache as a key-sorted association
list, and the blob transform `minimize_blob` (an external, pure,
deterministic collaborator per the design) as an abstract function
`Oid → MinifiedBlobs`.  Rust panics are modelled as `Except.error`.
-/

set_option maxHeartbeats 1000000

namespace Minimizer

/-- Content identifiers (`git2::Oid`): opaque fixed-width digests with a
total order, modelled as naturals.  The decimal digit rendering below stands
for the digest rendering of `Oid::to_string` / `Oid::from_str` (an injective
digit string with a parser that inverts it). -/
abbrev Oid := Nat

/-- Sizes, in bytes, of an html document in various forms (`struct Sizes`). -/
structure Sizes where
  original_len : Nat
  minified_len : Nat
  gz_len : Nat
  br_len : Nat
deriving DecidableEq, Repr

/-- Componentwise addition (`impl std::ops::Add for Sizes`). -/
instance : Add Sizes :=
  ⟨fun a b =>
    ⟨a.original_len + b.original_len, a.minified_len + b.minified_len,
     a.gz_len + b.gz_len, a.br_len + b.br_len⟩⟩

/-- `Sizes::default()`. -/
def Sizes.zero : Sizes := ⟨0, 0, 0, 0⟩

theorem Sizes.add_def (a b : Sizes) :
    a + b = ⟨a.original_len + b.original_len, a.minified_len + b.minified_len,
             a.gz_len + b.gz_len, a.br_len + b.br_len⟩ := rfl

/-- Blob oids of an html blob that we have already minified
(`struct MinifiedBlobs`). -/
structure MinifiedBlobs where
  minified : Oid
  gz : Oid
  br : Oid
  sizes : Sizes
deriving DecidableEq, Repr

/-- `struct Cache(BTreeMap<Oid, MinifiedBlobs>)`, modelled as an association
list kept sorted by strictly increasing key, matching B-tree map iteration
order. -/
abbrev Cache := List (Oid × MinifiedBlobs)

/-- `Cache::new`. -/
def Cache.new : Cache := []

/-- `BTreeMap::get`. -/
def Cache.find? : Cache → Oid → Option MinifiedBlobs
  | [], _ => none
  | (k, v) :: t, id => if id = k then some v else Cache.find? t id

/-- `BTreeMap::insert`: sorted insertion, replacing an existing binding. -/
def Cache.insert : Cache → Oid → MinifiedBlobs → Cache
  | [], k, v => [(k, v)]
  | (k1, v1) :: t, k, v =>
    if k < k1 then (k, v) :: (k1, v1) :: t
    else if k = k1 then (k, v) :: t
    else (k1, v1) :: Cache.insert t k v

/-- The B-tree map representation invariant: keys strictly increasing. -/
def Cache.Sorted (c : Cache) : Prop := List.Pairwise (fun a b => a.1 < b.1) c

instance : DecidablePred Cache.Sorted := fun c =>
  inferInstanceAs (Decidable (List.Pairwise _ c))

/-- Render a natural in decimal, most significant digit first
(the `Display` rendering used by `Cache::serialize`). -/
def renderNat (n : Nat) : List Char :=
  if _h : n < 10 then [Nat.digitChar n]
  else renderNat (n / 10) ++ [Nat.digitChar (n % 10)]
termination_by n
decreasing_by exact Nat.div_lt_self (by omega) (by omega)

/-- Numeric value of a digit character, if it is one. -/
def digitVal? (c : Char) : Option Nat :=
  if '0' ≤ c ∧ c ≤ '9' then some (c.toNat - Char.toNat '0') else none

def parseNatAux : List Char → Nat → Option Nat
  | [], acc => some acc
  | c :: t, acc =>
    match digitVal? c with
    | some d => parseNatAux t (acc * 10 + d)
    | none => none

/-- `usize::from_str` / `Oid::from_str`: parse the digit rendering; empty or
non-digit input fails. -/
def parseNat (s : List Char) : Option Nat :=
  if s.isEmpty then none else parseNatAux s 0

def tabChar : Char := '\t'

/-- Split a line at tab characters (`str::split('\t')`). -/
def splitTab : List Char → List (List Char)
  | [] => [[]]
  | c :: t =>
    if c = tabChar then [] :: splitTab t
    else
      match splitTab t with
      | [] => [[c]]
      | f :: r => (c :: f) :: r

/-- Join fields with tab characters (the `\t`-separated `writeln!`). -/
def joinTab : List (List Char) → List Char
  | [] => []
  | [f] => f
  | f :: r => f ++ tabChar :: joinTab r

/-- `Cache::HEADER`. -/
def headerLine : List Char :=
  "blob\tblob_len\tminified\tminified_len\tgz\tgz_len\tbr\tbr_len".data

/-- One data row of `Cache::serialize`: key, original_len, minified,
minified_len, gz, gz_len, br, br_len, tab separated. -/
def serializeLine (k : Oid) (v : MinifiedBlobs) : List Char :=
  joinTab [renderNat k, renderNat v.sizes.original_len,
    renderNat v.minified, renderNat v.sizes.minified_len,
    renderNat v.gz, renderNat v.sizes.gz_len,
    renderNat v.br, renderNat v.sizes.br_len]

/-- `Cache::serialize`, at the level of output lines: the header row, then
one row per entry in map iteration order. -/
def Cache.serialize (c : Cache) : List (List Char) :=
  headerLine :: c.map fun e => serializeLine e.1 e.2

/-- Parse one data row (`Cache::deserialize` loop body): split on tabs, take
the first eight fields positionally (further fields are never consumed),
parse each.  A missing or unparsable field is a fatal parse error: the Rust
`expect` calls abort the process. -/
def parseLine (line : List Char) : Except String (Oid × MinifiedBlobs) :=
  match splitTab line with
  | key :: f1 :: f2 :: f3 :: f4 :: f5 :: f6 :: f7 :: _ =>
    match parseNat key, parseNat f1, parseNat f2, parseNat f3,
        parseNat f4, parseNat f5, parseNat f6, parseNat f7 with
    | some k, some ol, some mi, some ml, some gzo, some gl, some bro, some bl =>
      Except.ok (k, ⟨mi, gzo, bro, ⟨ol, ml, gl, bl⟩⟩)
    | _, _, _, _, _, _, _, _ => Except.error "Invalid oid or len."
  | _ => Except.error "Invalid format, expected oid or len."

/-- The data-row loop of `Cache::deserialize`: parse each line and insert
into the accumulating map. -/
def deserializeLines : List (List Char) → Cache → Except String Cache
  | [], acc => Except.ok acc
  | l :: t, acc =>
    match parseLine l with
    | Except.ok kv => deserializeLines t (Cache.insert acc kv.1 kv.2)
    | Except.error e => Except.error e

/-- `Cache::deserialize`, at the level of input lines.  `Except.error`
stands for the Rust panics (`panic!`, `assert_eq!`, `expect`), which abort
the whole process. -/
def Cache.deserialize (input : List (List Char)) : Except String Cache :=
  match input with
  | [] => Except.error "Failed to load cache, expected header row."
  | h :: rest =>
    if h = headerLine then deserializeLines rest Cache.new
    else Except.error "Invalid header row."

/-- Outcome of the cache-loading step of `main`: either a starting cache, or
a fatal abort of the run. -/
inductive LoadOutcome where
  | ok (c : Cache)
  | fatal (msg : String)
deriving DecidableEq

/-- The cache-loading step of `main`: an I/O failure (file absent or
unreadable, modelled as `none`) is caught by the `match` in `main` and falls
back to the empty cache; a readable file is parsed by `Cache::deserialize`,
whose parse panics abort the run. -/
def mainLoadCache (file : Option (List (List Char))) : LoadOutcome :=
  match file with
  | none => LoadOutcome.ok Cache.new
  | some lines =>
    match Cache.deserialize lines with
    | Except.ok c => LoadOutcome.ok c
    | Except.error m => LoadOutcome.fatal m

/-- File names (Rust `&str`), as character lists. -/
abbrev Name := List Char

/-- `str::ends_with`: suffix test on the character sequence. -/
def endsWith (s pat : Name) : Bool := decide (pat <:+ s)

def htmlExt : Name := ".html".data

def pngExt : Name := ".png".data

def jpgExt : Name := ".jpg".data

def gzExt : Name := ".gz".data

def brExt : Name := ".br".data

/-- The theme-directory sentinel skipped at the root. -/
def themeName : Name := "theme".data

/-- An object in a source tree, as seen through `TreeEntry::kind`: a blob
(carrying its oid), a subtree (carrying the entries that
`repo.find_tree(entry.id())` resolves to), or an entry of any other kind
(`None`, commit, tag, ...), which `minimize_tree` treats as fatal. -/
inductive InNode where
  | blob (id : Oid)
  | tree (entries : List (Name × InNode))
  | other

/-- A node of the rebuilt output tree.  Trees are content-addressed, so a
built tree is identified by its entry list (name, filemode, child): equal
contents is equal ContentId, which is what `TreeBuilder::write` returns. -/
inductive OutNode where
  | blob (id : Oid)
  | tree (entries : List (Name × Nat × OutNode))

def filemode_directory : Nat := 0o040000

def filemode_regular : Nat := 0o0100644

/-- The mutable state threaded through the walk: the cache, plus a ghost log
of the blob ids on which the blob transform (`minimize_blob`) was actually
invoked, recording each invocation for the memoization property.  The log
never influences the computation. -/
structure BlobState where
  cache : Cache
  calls : List Oid
deriving DecidableEq, Repr

/-- `minimize_blob_cached`: the `BTreeMap::entry` get-or-compute.
`transform` stands for `minimize_blob` — per the design a pure,
deterministic function of the blob's content id, yielding the oids of the
minified / gzip / brotli blobs it stores plus their sizes.  On a cache hit
the stored record is returned unchanged; on a miss the computed record is
inserted and the invocation is logged. -/
def minimize_blob_cached (transform : Oid → MinifiedBlobs) (st : BlobState)
    (id : Oid) : MinifiedBlobs × BlobState :=
  match Cache.find? st.cache id with
  | some blobs => (blobs, st)
  | none =>
    (transform id, ⟨Cache.insert st.cache id (transform id), st.calls ++ [id]⟩)

/-- The entry loop of `minimize_tree`: walk the entries of one source tree
in order, building the output entry list (`TreeBuilder` insertions, in
insertion order), threading the cache state and the running size total.
`Except.error` stands for the `panic!` on an unexpected object type.  The
recursive `minimize_tree` call for a subtree is inlined: its
emptiness-to-`None` test is the `isEmpty` test on the subtree's built
entries (see `minimizeEntries_cons_tree`). -/
def minimizeEntries (transform : Oid → MinifiedBlobs) :
    Nat → List (Name × InNode) → BlobState → Sizes →
    Except String (List (Name × Nat × OutNode) × BlobState × Sizes)
  | _, [], st, sizes => Except.ok ([], st, sizes)
  | depth, (name, InNode.tree sub) :: rest, st, sizes =>
    if name = themeName ∧ depth = 0 then
      minimizeEntries transform depth rest st sizes
    else
      match minimizeEntries transform (depth + 1) sub st sizes with
      | Except.error e => Except.error e
      | Except.ok (built, st1, sizes1) =>
        match minimizeEntries transform depth rest st1 sizes1 with
        | Except.error e => Except.error e
        | Except.ok (tail, st2, sizes2) =>
          if built.isEmpty then Except.ok (tail, st2, sizes2)
          else
            Except.ok ((name, filemode_directory, OutNode.tree built) :: tail,
              st2, sizes2)
  | depth, (name, InNode.blob id) :: rest, st, sizes =>
    let step1 :=
      if endsWith name htmlExt then
        let res := minimize_blob_cached transform st id
        ([(name, filemode_regular, OutNode.blob res.1.minified),
          (name ++ gzExt, filemode_regular, OutNode.blob res.1.gz),
          (name ++ brExt, filemode_regular, OutNode.blob res.1.br)],
         res.2, sizes + res.1.sizes)
      else ([], st, sizes)
    let head2 :=
      if endsWith name pngExt || endsWith name jpgExt then
        [(name, filemode_regular, OutNode.blob id)]
      else []
    match minimizeEntries transform depth rest step1.2.1 step1.2.2 with
    | Except.error e => Except.error e
    | Except.ok (tail, st2, sizes2) =>
      Except.ok (step1.1 ++ head2 ++ tail, st2, sizes2)
  | _, (_, InNode.other) :: _, _, _ =>
    Except.error "Unexpected object type in tree"
termination_by _ entries _ _ => sizeOf entries
decreasing_by all_goals (simp_wf <;> omega)

/-- `minimize_tree`: build the output entries for one source tree; if the
builder ended up empty return `none`, else `some` built tree (its contents
standing for the oid that `TreeBuilder::write` returns). -/
def minimize_tree (transform : Oid → MinifiedBlobs) (depth : Nat)
    (entries : List (Name × InNode)) (st : BlobState) (sizes : Sizes) :
    Except String (Option (List (Name × Nat × OutNode)) × BlobState × Sizes) :=
  match minimizeEntries transform depth entries st sizes with
  | Except.error e => Except.error e
  | Except.ok (built, st1, sizes1) =>
    if built.isEmpty then Except.ok (none, st1, sizes1)
    else Except.ok (some built, st1, sizes1)

/-! ### Building a cache by repeated insertion -/

/-- Building a cache by repeated `BTreeMap::insert`, starting empty — the
only way the program ever builds one. -/
def foldInsert (l : List (Oid × MinifiedBlobs)) : Cache :=
  l.foldl (fun c e => Cache.insert c e.1 e.2) Cache.new

/-! ### Basic facts about the cache map -/

theorem Cache.find?_cons (ke : Oid) (ve : MinifiedBlobs) (t : Cache) (k : Oid) :
    Cache.find? ((ke, ve) :: t) k = if k = ke then some ve else Cache.find? t k :=
  rfl

theorem Cache.insert_cons (ke : Oid) (ve : MinifiedBlobs) (t : Cache) (k : Oid)
    (v : MinifiedBlobs) :
    Cache.insert ((ke, ve) :: t) k v =
      if k < ke then (k, v) :: (ke, ve) :: t
      else if k = ke then (k, v) :: t
      else (ke, ve) :: Cache.insert t k v :=
  rfl

theorem Cache.find?_insert (c : Cache) (k : Oid) (v : MinifiedBlobs) (k1 : Oid) :
    Cache.find? (Cache.insert c k v) k1 =
      if k1 = k then some v else Cache.find? c k1 := by
  induction c with
  | nil => simp [Cache.insert, Cache.find?]
  | cons e t ih =>
    obtain ⟨ke, ve⟩ := e
    by_cases h1 : k < ke
    · rw [Cache.insert_cons, if_pos h1]
      by_cases h3 : k1 = k <;> simp [Cache.find?_cons, h3]
    · by_cases h2 : k = ke
      · subst h2
        rw [Cache.insert_cons, if_neg h1, if_pos rfl]
        by_cases h3 : k1 = k <;> simp [Cache.find?_cons, h3]
      · rw [Cache.insert_cons, if_neg h1, if_neg h2]
        by_cases h3 : k1 = ke
        · have h4 : ¬ k1 = k := fun hh => h2 (hh ▸ h3)
          have h5 : ¬ ke = k := fun hh => h2 hh.symm
          simp [Cache.find?_cons, h3, h4, h5]
        · simp [Cache.find?_cons, h3, ih]

theorem Cache.mem_insert (c : Cache) (k : Oid) (v : MinifiedBlobs)
    (a : Oid × MinifiedBlobs) (ha : a ∈ Cache.insert c k v) :
    a = (k, v) ∨ a ∈ c := by
  induction c with
  | nil => simpa [Cache.insert] using ha
  | cons e t ih =>
    obtain ⟨ke, ve⟩ := e
    rw [Cache.insert_cons] at ha
    split_ifs at ha with h1 h2
    · simpa using ha
    · rcases List.mem_cons.mp ha with h | h
      · exact Or.inl h
      · exact Or.inr (List.mem_cons_of_mem _ h)
    · rcases List.mem_cons.mp ha with h | h
      · exact Or.inr (h ▸ List.mem_cons_self _ _)
      · rcases ih h with h3 | h3
        · exact Or.inl h3
        · exact Or.inr (List.mem_cons_of_mem _ h3)

theorem Cache.insert_sorted (c : Cache) (k : Oid) (v : MinifiedBlobs)
    (hc : c.Sorted) : (Cache.insert c k v).Sorted := by
  induction c with
  | nil => simp [Cache.insert, Cache.Sorted]
  | cons e t ih =>
    obtain ⟨ke, ve⟩ := e
    rw [Cache.Sorted, List.pairwise_cons] at hc
    obtain ⟨hhead, htail⟩ := hc
    rw [Cache.Sorted, Cache.insert_cons]
    split_ifs with h1 h2
    · refine List.Pairwise.cons ?_ (List.Pairwise.cons hhead htail)
      intro a ha
      rcases List.mem_cons.mp ha with h | h
      · subst h
        exact h1
      · exact lt_trans h1 (hhead a h)
    · subst h2
      exact List.Pairwise.cons hhead htail
    · refine List.Pairwise.cons ?_ (ih htail)
      intro a ha
      rcases Cache.mem_insert t k v a ha with h | h
      · subst h
        exact Nat.lt_of_le_of_ne (Nat.not_lt.mp h1) (fun hh => h2 hh.symm)
      · exact hhead a h

theorem Cache.find?_eq_none_of_lt (c : Cache) (k : Oid) (hc : c.Sorted)
    (h : ∀ e ∈ c, k < e.1) : Cache.find? c k = none := by
  induction c with
  | nil => rfl
  | cons e t ih =>
    obtain ⟨ke, ve⟩ := e
    have hk : k < ke := h (ke, ve) (List.mem_cons_self _ _)
    rw [Cache.Sorted, List.pairwise_cons] at hc
    rw [Cache.find?_cons, if_neg (Nat.ne_of_lt hk)]
    exact ih hc.2 (fun e he => h e (List.mem_cons_of_mem _ he))

theorem Cache.ext_sorted (c1 c2 : Cache) (h1 : c1.Sorted) (h2 : c2.Sorted)
    (h : ∀ k, Cache.find? c1 k = Cache.find? c2 k) : c1 = c2 := by
  induction c1 generalizing c2 with
  | nil =>
    cases c2 with
    | nil => rfl
    | cons e t =>
      obtain ⟨ke, ve⟩ := e
      have hv := h ke
      rw [Cache.find?_cons, if_pos rfl] at hv
      exact Option.noConfusion hv
  | cons e t ih =>
    obtain ⟨ke, ve⟩ := e
    cases c2 with
    | nil =>
      have hv := h ke
      rw [Cache.find?_cons, if_pos rfl] at hv
      exact Option.noConfusion hv
    | cons e2 t2 =>
      obtain ⟨ke2, ve2⟩ := e2
      rw [Cache.Sorted, List.pairwise_cons] at h1 h2
      have hkk : ke = ke2 := by
        by_contra hne
        rcases Nat.lt_or_ge ke ke2 with hlt | hge
        · have hv := h ke
          rw [Cache.find?_cons, if_pos rfl, Cache.find?_cons,
            if_neg hne] at hv
          rw [Cache.find?_eq_none_of_lt t2 ke h2.2
            (fun e he => lt_trans hlt (h2.1 e he))] at hv
          exact Option.noConfusion hv
        · have hgt : ke2 < ke :=
            Nat.lt_of_le_of_ne hge (fun hh => hne hh.symm)
          have hv := (h ke2).symm
          rw [Cache.find?_cons, if_pos rfl, Cache.find?_cons,
            if_neg (Nat.ne_of_lt hgt)] at hv
          rw [Cache.find?_eq_none_of_lt t ke2 h1.2
            (fun e he => lt_trans hgt (h1.1 e he))] at hv
          exact Option.noConfusion hv
      subst hkk
      have hvv : ve = ve2 := by
        have hv := h ke
        rw [Cache.find?_cons, if_pos rfl, Cache.find?_cons, if_pos rfl] at hv
        exact Option.some.inj hv
      subst hvv
      have htt : t = t2 := by
        refine ih t2 h1.2 h2.2 (fun k => ?_)
        by_cases hk : k = ke
        · subst hk
          rw [Cache.find?_eq_none_of_lt t k h1.2 h1.1,
            Cache.find?_eq_none_of_lt t2 k h2.2 h2.1]
        · have hv := h k
          rwa [Cache.find?_cons, if_neg hk, Cache.find?_cons, if_neg hk] at hv
      rw [htt]

/-- Inserting a key above every present key appends at the end. -/
theorem Cache.insert_append (c : Cache) (k : Oid) (v : MinifiedBlobs)
    (h : ∀ e ∈ c, e.1 < k) : Cache.insert c k v = c ++ [(k, v)] := by
  induction c with
  | nil => rfl
  | cons e t ih =>
    obtain ⟨ke, ve⟩ := e
    have hk : ke < k := h (ke, ve) (List.mem_cons_self _ _)
    rw [Cache.insert_cons, if_neg (Nat.lt_asymm hk),
      if_neg (Nat.ne_of_gt hk), List.cons_append]
    rw [ih (fun e he => h e (List.mem_cons_of_mem _ he))]

/-! ### Round trip of the digit rendering and the tab-separated format -/

theorem digitVal?_digitChar (n : Nat) (h : n < 10) :
    digitVal? (Nat.digitChar n) = some n := by
  interval_cases n <;> decide

theorem renderNat_ne_nil (n : Nat) : renderNat n ≠ [] := by
  rw [renderNat]
  split
  · exact List.cons_ne_nil _ _
  · exact List.append_ne_nil_of_right_ne_nil _ (List.cons_ne_nil _ _)

theorem renderNat_no_tab (n : Nat) : ∀ c ∈ renderNat n, c ≠ tabChar := by
  induction n using Nat.strong_induction_on with
  | _ n ih =>
    rw [renderNat]
    split
    · intro c hc
      rcases List.mem_singleton.mp hc with rfl
      rename_i h
      interval_cases n <;> decide
    · intro c hc
      rcases List.mem_append.mp hc with h | h
      · rename_i hn
        exact ih (n / 10) (Nat.div_lt_self (by omega) (by omega)) c h
      · rcases List.mem_singleton.mp h with rfl
        have : n % 10 < 10 := Nat.mod_lt n (by omega)
        interval_cases hh : n % 10 <;> simp_all <;> decide

theorem parseNatAux_append (xs ys : List Char) (acc : Nat) :
    parseNatAux (xs ++ ys) acc =
      match parseNatAux xs acc with
      | some a => parseNatAux ys a
      | none => none := by
  induction xs generalizing acc with
  | nil => simp [parseNatAux]
  | cons c t ih =>
    rw [List.cons_append, parseNatAux, parseNatAux]
    cases digitVal? c with
    | none => rfl
    | some d => exact ih (acc * 10 + d)

theorem parseNatAux_renderNat (n acc : Nat) :
    parseNatAux (renderNat n) acc =
      some (acc * 10 ^ (renderNat n).length + n) := by
  induction n using Nat.strong_induction_on generalizing acc with
  | _ n ih =>
    by_cases h : n < 10
    · rw [renderNat, dif_pos h]
      simp [parseNatAux, digitVal?_digitChar n h]
    · rw [renderNat, dif_neg h]
      rw [parseNatAux_append]
      rw [ih (n / 10) (Nat.div_lt_self (by omega) (by omega)) acc]
      have hm : n % 10 < 10 := Nat.mod_lt n (by omega)
      simp only [parseNatAux, digitVal?_digitChar _ hm]
      rw [List.length_append, List.length_singleton, pow_succ]
      congr 1
      have := Nat.div_add_mod n 10
      ring_nf
      omega

theorem parseNat_renderNat (n : Nat) : parseNat (renderNat n) = some n := by
  rw [parseNat, if_neg]
  · rw [parseNatAux_renderNat]
    simp
  · simp [List.isEmpty_iff, renderNat_ne_nil n]

theorem splitTab_cons_of_mem (f : List Char) (l : List Char)
    (hf : ∀ c ∈ f, c ≠ tabChar) (g : List Char) (r : List (List Char))
    (hl : splitTab l = g :: r) : splitTab (f ++ l) = (f ++ g) :: r := by
  induction f with
  | nil => simpa using hl
  | cons c t ih =>
    have hc : c ≠ tabChar := hf c (List.mem_cons_self _ _)
    rw [List.cons_append, splitTab, if_neg hc]
    rw [ih (fun c hc => hf c (List.mem_cons_of_mem _ hc))]
    rfl

theorem splitTab_joinTab (fields : List (List Char)) (hne : fields ≠ [])
    (hf : ∀ f ∈ fields, ∀ c ∈ f, c ≠ tabChar) :
    splitTab (joinTab fields) = fields := by
  induction fields with
  | nil => exact absurd rfl hne
  | cons f r ih =>
    cases r with
    | nil =>
      show splitTab (joinTab [f]) = [f]
      rw [joinTab]
      have : splitTab ([] : List Char) = [] :: [] := rfl
      have h2 := splitTab_cons_of_mem f [] (hf f (List.mem_cons_self _ _)) [] [] this
      simpa using h2
    | cons f2 r2 =>
      rw [show joinTab (f :: f2 :: r2) = f ++ tabChar :: joinTab (f2 :: r2)
        from rfl]
      have htail : splitTab (tabChar :: joinTab (f2 :: r2)) =
          [] :: splitTab (joinTab (f2 :: r2)) := by
        rw [splitTab, if_pos rfl]
      rw [ih (List.cons_ne_nil _ _)
        (fun g hg c hc => hf g (List.mem_cons_of_mem _ hg) c hc)] at htail
      have h2 := splitTab_cons_of_mem f (tabChar :: joinTab (f2 :: r2))
        (hf f (List.mem_cons_self _ _)) [] (f2 :: r2) htail
      simpa using h2

theorem parseLine_serializeLine (k : Oid) (v : MinifiedBlobs) :
    parseLine (serializeLine k v) = Except.ok (k, v) := by
  rw [serializeLine, parseLine]
  rw [splitTab_joinTab _ (List.cons_ne_nil _ _) ?htabfree]
  case htabfree =>
    intro f hf c hc
    simp only [List.mem_cons, List.not_mem_nil, or_false] at hf
    rcases hf with rfl | rfl | rfl | rfl | rfl | rfl | rfl | rfl <;>
      exact renderNat_no_tab _ c hc
  simp only [parseNat_renderNat]

theorem deserializeLines_serialize (c : Cache) :
    ∀ cpre : Cache, (cpre ++ c).Sorted →
      deserializeLines (c.map fun e => serializeLine e.1 e.2) cpre =
        Except.ok (cpre ++ c) := by
  induction c with
  | nil =>
    intro cpre h
    simp [deserializeLines]
  | cons e t ih =>
    intro cpre h
    obtain ⟨k, v⟩ := e
    rw [List.map_cons]
    rw [show deserializeLines
        ((serializeLine k v) :: t.map fun e => serializeLine e.1 e.2) cpre =
      match parseLine (serializeLine k v) with
      | Except.ok kv =>
        deserializeLines (t.map fun e => serializeLine e.1 e.2)
          (Cache.insert cpre kv.1 kv.2)
      | Except.error e => Except.error e from rfl]
    rw [parseLine_serializeLine]
    have hlt : ∀ e ∈ cpre, e.1 < k := by
      rw [Cache.Sorted, List.pairwise_append] at h
      exact fun e he => h.2.2 e he (k, v) (List.mem_cons_self _ _)
    show deserializeLines _ (Cache.insert cpre k v) = _
    rw [Cache.insert_append cpre k v hlt]
    have h2 : ((cpre ++ [(k, v)]) ++ t).Sorted := by
      rw [List.append_assoc, List.singleton_append]
      exact h
    rw [ih (cpre ++ [(k, v)]) h2]
    rw [List.append_assoc, List.singleton_append]

/-- `Cache::serialize` then `Cache::deserialize` reproduces a sorted cache. -/
theorem deserialize_serialize (c : Cache) (hc : c.Sorted) :
    Cache.deserialize (Cache.serialize c) = Except.ok c := by
  rw [Cache.serialize]
  rw [show Cache.deserialize
      (headerLine :: c.map fun e => serializeLine e.1 e.2) =
    if headerLine = headerLine then
      deserializeLines (c.map fun e => serializeLine e.1 e.2) Cache.new
    else Except.error "Invalid header row." from rfl]
  rw [if_pos rfl]
  have h := deserializeLines_serialize c [] (by simpa [Cache.Sorted] using hc)
  simpa using h

theorem foldl_insert_sorted (l : List (Oid × MinifiedBlobs)) :
    ∀ c : Cache, c.Sorted →
      (l.foldl (fun c e => Cache.insert c e.1 e.2) c).Sorted := by
  induction l with
  | nil => exact fun c hc => hc
  | cons e t ih =>
    intro c hc
    exact ih (Cache.insert c e.1 e.2) (Cache.insert_sorted c e.1 e.2 hc)

theorem foldInsert_sorted (l : List (Oid × MinifiedBlobs)) :
    (foldInsert l).Sorted :=
  foldl_insert_sorted l Cache.new (by simp [Cache.Sorted, Cache.new])

theorem mem_of_find? (c : Cache) (k : Oid) (v : MinifiedBlobs)
    (h : Cache.find? c k = some v) : (k, v) ∈ c := by
  induction c with
  | nil => exact Option.noConfusion h
  | cons e t ih =>
    obtain ⟨ke, ve⟩ := e
    rw [Cache.find?_cons] at h
    by_cases hk : k = ke
    · rw [if_pos hk] at h
      exact List.mem_cons.mpr (Or.inl (by rw [hk, Option.some.inj h]))
    · rw [if_neg hk] at h
      exact List.mem_cons_of_mem _ (ih h)

theorem find?_of_mem (c : Cache) (hnd : (c.map Prod.fst).Nodup) (k : Oid)
    (v : MinifiedBlobs) (h : (k, v) ∈ c) : Cache.find? c k = some v := by
  induction c with
  | nil => exact absurd h (List.not_mem_nil _)
  | cons e t ih =>
    obtain ⟨ke, ve⟩ := e
    rw [List.map_cons, List.nodup_cons] at hnd
    rcases List.mem_cons.mp h with h1 | h1
    · obtain ⟨hk, hv⟩ := Prod.mk.injEq .. ▸ h1
      subst hk
      subst hv
      rw [Cache.find?_cons, if_pos rfl]
    · have hk : ¬ k = ke := by
        intro hk
        subst hk
        exact hnd.1 (List.mem_map.mpr ⟨(k, v), h1, rfl⟩)
      rw [Cache.find?_cons, if_neg hk]
      exact ih hnd.2 h1

theorem find?_eq_none_iff (c : Cache) (k : Oid) :
    Cache.find? c k = none ↔ k ∉ c.map Prod.fst := by
  induction c with
  | nil => simp [Cache.find?]
  | cons e t ih =>
    obtain ⟨ke, ve⟩ := e
    rw [Cache.find?_cons, List.map_cons, List.mem_cons]
    by_cases hk : k = ke
    · simp [hk]
    · simp [hk, ih]

/-- Two association lists that are permutations of each other, with no
duplicate keys, agree as lookup tables. -/
theorem find?_perm (c1 c2 : Cache) (hp : c1.Perm c2)
    (hnd : (c1.map Prod.fst).Nodup) (k : Oid) :
    Cache.find? c1 k = Cache.find? c2 k := by
  cases h : Cache.find? c1 k with
  | none =>
    have hk := (find?_eq_none_iff c1 k).mp h
    rw [(find?_eq_none_iff c2 k).mpr
      (fun hmem => hk ((hp.map Prod.fst).mem_iff.mpr hmem))]
  | some v =>
    have hmem : (k, v) ∈ c2 := hp.mem_iff.mp (mem_of_find? c1 k v h)
    exact (find?_of_mem c2 ((hp.map Prod.fst).nodup_iff.mp hnd) k v hmem).symm

theorem find?_foldl_insert (l : List (Oid × MinifiedBlobs))
    (hnd : (l.map Prod.fst).Nodup) :
    ∀ (c : Cache) (k : Oid),
      Cache.find? (l.foldl (fun c e => Cache.insert c e.1 e.2) c) k =
        (Cache.find? l k).or (Cache.find? c k) := by
  induction l with
  | nil => simp [Cache.find?]
  | cons e t ih =>
    intro c k
    obtain ⟨ke, ve⟩ := e
    rw [List.map_cons, List.nodup_cons] at hnd
    rw [List.foldl_cons, ih hnd.2, Cache.find?_cons, Cache.find?_insert]
    by_cases hk : k = ke
    · subst hk
      rw [if_pos rfl, if_pos rfl]
      rw [(find?_eq_none_iff t k).mpr hnd.1]
      rfl
    · rw [if_neg hk, if_neg hk]

/-- The cache built by insertions is, as a lookup table, the input list. -/
theorem find?_foldInsert (l : List (Oid × MinifiedBlobs))
    (hnd : (l.map Prod.fst).Nodup) (k : Oid) :
    Cache.find? (foldInsert l) k = Cache.find? l k := by
  rw [foldInsert, find?_foldl_insert l hnd Cache.new k]
  cases Cache.find? l k <;> rfl

/-! ### Unfolding equations for the tree walk -/

theorem minimizeEntries_nil (tf : Oid → MinifiedBlobs) (d : Nat)
    (st : BlobState) (sz : Sizes) :
    minimizeEntries tf d [] st sz = Except.ok ([], st, sz) := by
  simp [minimizeEntries]

theorem minimizeEntries_cons_tree (tf : Oid → MinifiedBlobs) (d : Nat)
    (name : Name) (sub rest : List (Name × InNode)) (st : BlobState)
    (sz : Sizes) :
    minimizeEntries tf d ((name, InNode.tree sub) :: rest) st sz =
      if name = themeName ∧ d = 0 then
        minimizeEntries tf d rest st sz
      else
        match minimizeEntries tf (d + 1) sub st sz with
        | Except.error e => Except.error e
        | Except.ok (built, st1, sizes1) =>
          match minimizeEntries tf d rest st1 sizes1 with
          | Except.error e => Except.error e
          | Except.ok (tail, st2, sizes2) =>
            if built.isEmpty then Except.ok (tail, st2, sizes2)
            else
              Except.ok ((name, filemode_directory, OutNode.tree built) :: tail,
                st2, sizes2) := by
  rw [minimizeEntries]

theorem minimizeEntries_cons_blob (tf : Oid → MinifiedBlobs) (d : Nat)
    (name : Name) (id : Oid) (rest : List (Name × InNode)) (st : BlobState)
    (sz : Sizes) :
    minimizeEntries tf d ((name, InNode.blob id) :: rest) st sz =
      (let step1 :=
        if endsWith name htmlExt then
          let res := minimize_blob_cached tf st id
          ([(name, filemode_regular, OutNode.blob res.1.minified),
            (name ++ gzExt, filemode_regular, OutNode.blob res.1.gz),
            (name ++ brExt, filemode_regular, OutNode.blob res.1.br)],
           res.2, sz + res.1.sizes)
        else ([], st, sz)
      let head2 :=
        if endsWith name pngExt || endsWith name jpgExt then
          [(name, filemode_regular, OutNode.blob id)]
        else []
      match minimizeEntries tf d rest step1.2.1 step1.2.2 with
      | Except.error e => Except.error e
      | Except.ok (tail, st2, sizes2) =>
        Except.ok (step1.1 ++ head2 ++ tail, st2, sizes2)) := by
  rw [minimizeEntries]

theorem minimizeEntries_cons_other (tf : Oid → MinifiedBlobs) (d : Nat)
    (name : Name) (rest : List (Name × InNode)) (st : BlobState) (sz : Sizes) :
    minimizeEntries tf d ((name, InNode.other) :: rest) st sz =
      Except.error "Unexpected object type in tree" := by
  rw [minimizeEntries]

/-- The subtree case of the walk is exactly the source's recursive
`minimize_tree` call: recurse, then insert the subtree entry precisely when
the recursion returned `Some`. -/
theorem minimizeEntries_tree_eq (tf : Oid → MinifiedBlobs) (d : Nat)
    (name : Name) (sub rest : List (Name × InNode)) (st : BlobState)
    (sz : Sizes) :
    minimizeEntries tf d ((name, InNode.tree sub) :: rest) st sz =
      if name = themeName ∧ d = 0 then
        minimizeEntries tf d rest st sz
      else
        match minimize_tree tf (d + 1) sub st sz with
        | Except.error e => Except.error e
        | Except.ok (subRes, st1, sizes1) =>
          match minimizeEntries tf d rest st1 sizes1 with
          | Except.error e => Except.error e
          | Except.ok (tail, st2, sizes2) =>
            match subRes with
            | some built =>
              Except.ok ((name, filemode_directory, OutNode.tree built) :: tail,
                st2, sizes2)
            | none => Except.ok (tail, st2, sizes2) := by
  rw [minimizeEntries_cons_tree, minimize_tree]
  by_cases hth : name = themeName ∧ d = 0
  · rw [if_pos hth, if_pos hth]
  · rw [if_neg hth, if_neg hth]
    cases hsub : minimizeEntries tf (d + 1) sub st sz with
    | error e => rfl
    | ok r =>
      obtain ⟨built, st1, sizes1⟩ := r
      by_cases hb : built.isEmpty <;> simp [hb]

/-- Induction principle for source-tree entry lists, following the
recursion structure of `minimize_tree`: a subtree's entry list and the
remaining siblings are both smaller. -/
theorem entries_rec (P : List (Name × InNode) → Prop)
    (hnil : P [])
    (hblob : ∀ name id rest, P rest → P ((name, InNode.blob id) :: rest))
    (hother : ∀ name rest, P rest → P ((name, InNode.other) :: rest))
    (htree : ∀ name sub rest, P sub → P rest →
      P ((name, InNode.tree sub) :: rest)) :
    ∀ l, P l := by
  have key : ∀ n l, sizeOf l ≤ n → P l := by
    intro n
    induction n with
    | zero =>
      intro l hl
      cases l with
      | nil => exact hnil
      | cons e t =>
        exfalso
        have h1 : 0 < sizeOf (e :: t) := by
          simp only [List.cons.sizeOf_spec]
          omega
        omega
    | succ n ih =>
      intro l hl
      cases l with
      | nil => exact hnil
      | cons e t =>
        obtain ⟨name, node⟩ := e
        cases node with
        | blob id =>
          refine hblob name id t (ih t ?_)
          simp only [List.cons.sizeOf_spec, Prod.mk.sizeOf_spec,
            InNode.blob.sizeOf_spec] at hl ⊢
          omega
        | other =>
          refine hother name t (ih t ?_)
          simp only [List.cons.sizeOf_spec, Prod.mk.sizeOf_spec,
            InNode.other.sizeOf_spec] at hl ⊢
          omega
        | tree sub =>
          refine htree name sub t (ih sub ?_) (ih t ?_) <;>
            · simp only [List.cons.sizeOf_spec, Prod.mk.sizeOf_spec,
                InNode.tree.sizeOf_spec] at hl ⊢
              omega
  exact fun l => key (sizeOf l) l (Nat.le_refl _)

/-- The blob case of the walk when the name has the html extension: a
memoized lookup, the three fan-out insertions, and the size fold. -/
theorem minimizeEntries_cons_blob_html (tf : Oid → MinifiedBlobs) (d : Nat)
    (name : Name) (id : Oid) (rest : List (Name × InNode)) (st : BlobState)
    (sz : Sizes) (h : endsWith name htmlExt = true) :
    minimizeEntries tf d ((name, InNode.blob id) :: rest) st sz =
      match minimizeEntries tf d rest (minimize_blob_cached tf st id).2
          (sz + (minimize_blob_cached tf st id).1.sizes) with
      | Except.error e => Except.error e
      | Except.ok (tail, st2, sizes2) =>
        Except.ok
          ([(name, filemode_regular,
              OutNode.blob (minimize_blob_cached tf st id).1.minified),
            (name ++ gzExt, filemode_regular,
              OutNode.blob (minimize_blob_cached tf st id).1.gz),
            (name ++ brExt, filemode_regular,
              OutNode.blob (minimize_blob_cached tf st id).1.br)] ++
            (if endsWith name pngExt || endsWith name jpgExt then
              [(name, filemode_regular, OutNode.blob id)]
            else []) ++ tail, st2, sizes2) := by
  rw [minimizeEntries_cons_blob]
  simp only [h, if_true]

/-- The blob case of the walk when the name lacks the html extension: no
transform, no cache interaction; either a pass-through insertion (image
extension) or a drop. -/
theorem minimizeEntries_cons_blob_not_html (tf : Oid → MinifiedBlobs)
    (d : Nat) (name : Name) (id : Oid) (rest : List (Name × InNode))
    (st : BlobState) (sz : Sizes) (h : endsWith name htmlExt = false) :
    minimizeEntries tf d ((name, InNode.blob id) :: rest) st sz =
      match minimizeEntries tf d rest st sz with
      | Except.error e => Except.error e
      | Except.ok (tail, st2, sizes2) =>
        Except.ok
          ((if endsWith name pngExt || endsWith name jpgExt then
              [(name, filemode_regular, OutNode.blob id)]
            else []) ++ tail, st2, sizes2) := by
  rw [minimizeEntries_cons_blob]
  simp only [h, if_false, Bool.false_eq_true, List.nil_append]

/-! ### Suffix facts about file extensions -/

theorem getLast?_of_suffix {l n : Name} (hne : l ≠ []) (h : l <:+ n) :
    n.getLast? = l.getLast? := by
  obtain ⟨t, rfl⟩ := h
  exact List.getLast?_append_of_ne_nil t hne

/-- A name ending in the html extension ends in neither image extension. -/
theorem endsWith_html_not_image (n : Name) (h : endsWith n htmlExt = true) :
    endsWith n pngExt = false ∧ endsWith n jpgExt = false := by
  rw [endsWith, decide_eq_true_eq] at h
  have hl := getLast?_of_suffix (by decide) h
  constructor <;>
    · rw [endsWith, decide_eq_false_iff_not]
      intro h2
      have hg := getLast?_of_suffix (by decide) h2
      rw [hl] at hg
      exact absurd hg (by decide)

/-- The only error the tree walk ever produces is the unexpected-object-type
panic. -/
theorem minimizeEntries_error_msg (tf : Oid → MinifiedBlobs) :
    ∀ (entries : List (Name × InNode)) (d : Nat) (st : BlobState) (sz : Sizes)
      (e : String), minimizeEntries tf d entries st sz = Except.error e →
      e = "Unexpected object type in tree" := by
  intro entries
  induction entries using entries_rec with
  | hnil =>
    intro d st sz e he
    rw [minimizeEntries_nil] at he
    exact Except.noConfusion he
  | hblob name id rest ih =>
    intro d st sz e he
    by_cases hh : endsWith name htmlExt
    · rw [minimizeEntries_cons_blob_html tf d name id rest st sz hh] at he
      cases hrest : minimizeEntries tf d rest (minimize_blob_cached tf st id).2
          (sz + (minimize_blob_cached tf st id).1.sizes) with
      | error e2 =>
        simp only [hrest] at he
        injection he with h1
        subst h1
        exact ih d _ _ e2 hrest
      | ok r =>
        obtain ⟨tail, st2, sizes2⟩ := r
        simp only [hrest] at he
        exact Except.noConfusion he
    · rw [minimizeEntries_cons_blob_not_html tf d name id rest st sz
        (Bool.eq_false_iff.mpr hh)] at he
      cases hrest : minimizeEntries tf d rest st sz with
      | error e2 =>
        simp only [hrest] at he
        injection he with h1
        subst h1
        exact ih d _ _ e2 hrest
      | ok r =>
        obtain ⟨tail, st2, sizes2⟩ := r
        simp only [hrest] at he
        exact Except.noConfusion he
  | hother name rest ih =>
    intro d st sz e he
    rw [minimizeEntries_cons_other] at he
    injection he with h1
    exact h1.symm
  | htree name sub rest ihsub ihrest =>
    intro d st sz e he
    rw [minimizeEntries_cons_tree] at he
    by_cases hth : name = themeName ∧ d = 0
    · rw [if_pos hth] at he
      exact ihrest d st sz e he
    · rw [if_neg hth] at he
      cases hsub : minimizeEntries tf (d + 1) sub st sz with
      | error e2 =>
        simp only [hsub] at he
        injection he with h1
        subst h1
        exact ihsub (d + 1) st sz e2 hsub
      | ok r =>
        obtain ⟨built, st1, sizes1⟩ := r
        simp only [hsub] at he
        cases hrest : minimizeEntries tf d rest st1 sizes1 with
        | error e2 =>
          simp only [hrest] at he
          injection he with h1
          subst h1
          exact ihrest d st1 sizes1 e2 hrest
        | ok r2 =>
          obtain ⟨tail, st2, sizes2⟩ := r2
          simp only [hrest] at he
          by_cases hb : built.isEmpty <;> simp [hb] at he

/-- A tree with an unrecognized-kind entry always makes the walk abort with
the unexpected-object-type panic. -/
theorem minimizeEntries_other_mem (tf : Oid → MinifiedBlobs) :
    ∀ entries : List (Name × InNode),
      (∃ name, (name, InNode.other) ∈ entries) →
      ∀ (d : Nat) (st : BlobState) (sz : Sizes),
        minimizeEntries tf d entries st sz =
          Except.error "Unexpected object type in tree" := by
  intro entries
  induction entries with
  | nil =>
    rintro ⟨name, hmem⟩
    exact absurd hmem (List.not_mem_nil _)
  | cons e rest ih =>
    rintro ⟨name, hmem⟩ d st sz
    obtain ⟨nm, node⟩ := e
    rcases List.mem_cons.mp hmem with heq | hmem2
    · injection heq with h1 h2
      subst h2
      rw [minimizeEntries_cons_other]
    · have hres := ih ⟨name, hmem2⟩
      cases node with
      | other => rw [minimizeEntries_cons_other]
      | blob id =>
        by_cases hh : endsWith nm htmlExt
        · rw [minimizeEntries_cons_blob_html tf d nm id rest st sz hh]
          simp only [hres]
        · rw [minimizeEntries_cons_blob_not_html tf d nm id rest st sz
            (Bool.eq_false_iff.mpr hh)]
          simp only [hres]
      | tree sub =>
        rw [minimizeEntries_cons_tree]
        by_cases hth : nm = themeName ∧ d = 0
        · rw [if_pos hth]
          exact hres d st sz
        · rw [if_neg hth]
          cases hsub : minimizeEntries tf (d + 1) sub st sz with
          | error e2 =>
            exact congrArg Except.error
              (minimizeEntries_error_msg tf sub (d + 1) st sz e2 hsub)
          | ok r =>
            obtain ⟨built, st1, sizes1⟩ := r
            simp only [hres]

/-! ### Claim C9: unrecognized entry kinds are fatal -/

/-- C9: for every tree containing an entry whose kind is neither blob nor
tree, the tree transformer reaches the fatal unexpected-object-type error
branch — it aborts with that panic and returns no (partial) output tree. -/
theorem c9_unknown_kind_fatal (tf : Oid → MinifiedBlobs) (d : Nat)
    (entries : List (Name × InNode)) (st : BlobState) (sz : Sizes)
    (h : ∃ name, (name, InNode.other) ∈ entries) :
    minimize_tree tf d entries st sz =
      Except.error "Unexpected object type in tree" := by
  rw [minimize_tree, minimizeEntries_other_mem tf entries h d st sz]

theorem c9_unknown_kind_fatal_witness :
    (∃ name, (name, InNode.other) ∈
      [(([] : Name), InNode.blob 3), ((['a'] : Name), InNode.other)]) ∧
    minimize_tree (fun _ => ⟨0, 0, 0, ⟨0, 0, 0, 0⟩⟩) 0
        [(([] : Name), InNode.blob 3), ((['a'] : Name), InNode.other)]
        ⟨Cache.new, []⟩ Sizes.zero =
      Except.error "Unexpected object type in tree" :=
  ⟨⟨['a'], List.mem_cons_of_mem _ (List.mem_singleton.mpr rfl)⟩,
    c9_unknown_kind_fatal _ 0 _ _ _
      ⟨['a'], List.mem_cons_of_mem _ (List.mem_singleton.mpr rfl)⟩⟩

/-- Entries that are blobs with neither the html extension nor an
allow-listed image extension leave no output, no cache change, and no size
change. -/
theorem minimizeEntries_all_boring (tf : Oid → MinifiedBlobs) :
    ∀ entries : List (Name × InNode),
      (∀ name node, (name, node) ∈ entries → ∃ bid, node = InNode.blob bid ∧
        endsWith name htmlExt = false ∧ endsWith name pngExt = false ∧
        endsWith name jpgExt = false) →
      ∀ (d : Nat) (st : BlobState) (sz : Sizes),
        minimizeEntries tf d entries st sz = Except.ok ([], st, sz) := by
  intro entries
  induction entries with
  | nil =>
    intro _ d st sz
    rw [minimizeEntries_nil]
  | cons e rest ih =>
    intro hb d st sz
    obtain ⟨nm, node⟩ := e
    obtain ⟨bid, hnode, hh, hp, hj⟩ := hb nm node (List.mem_cons_self _ _)
    subst hnode
    rw [minimizeEntries_cons_blob_not_html tf d nm bid rest st sz hh]
    rw [ih (fun name node hmem => hb name node (List.mem_cons_of_mem _ hmem))
      d st sz]
    simp [hp, hj]

/-! ### Claim C5: pruning of empty output -/

/-- C5: the tree transformer returns `none` exactly when the rebuilt tree
has zero entries; a subdirectory whose recursive transformation came back
`none` contributes no entry to its parent's output, and a directory holding
only blobs that are neither html nor allow-listed images is itself fully
pruned (with no state or size change). -/
theorem c5_pruning (tf : Oid → MinifiedBlobs) (d : Nat)
    (entries : List (Name × InNode)) (st : BlobState) (sz : Sizes) :
    (∀ built st1 sz1,
      minimizeEntries tf d entries st sz = Except.ok (built, st1, sz1) →
      (minimize_tree tf d entries st sz = Except.ok (none, st1, sz1) ↔
        built = [])) ∧
    (∀ name sub st1 sz1, ¬ (name = themeName ∧ d = 0) →
      minimize_tree tf (d + 1) sub st sz = Except.ok (none, st1, sz1) →
      minimizeEntries tf d ((name, InNode.tree sub) :: entries) st sz =
        minimizeEntries tf d entries st1 sz1) ∧
    ((∀ name node, (name, node) ∈ entries → ∃ bid, node = InNode.blob bid ∧
        endsWith name htmlExt = false ∧ endsWith name pngExt = false ∧
        endsWith name jpgExt = false) →
      minimize_tree tf d entries st sz = Except.ok (none, st, sz)) := by
  refine ⟨?_, ?_, ?_⟩
  · intro built st1 sz1 hrun
    rw [minimize_tree]
    simp only [hrun]
    by_cases hb : built.isEmpty
    · rw [if_pos hb]
      simp [List.isEmpty_iff.mp hb]
    · rw [if_neg hb]
      constructor
      · intro hc
        injection hc with hc2
        exact absurd (congrArg Prod.fst hc2) (by simp)
      · intro hc
        exact absurd hc (by simpa [List.isEmpty_iff] using hb)
  · intro name sub st1 sz1 hth hsub
    rw [minimizeEntries_tree_eq, if_neg hth]
    simp only [hsub]
    cases hrest : minimizeEntries tf d entries st1 sz1 with
    | error e => rfl
    | ok r =>
      obtain ⟨tail, st2, sizes2⟩ := r
      rfl
  · intro hb
    rw [minimize_tree, minimizeEntries_all_boring tf entries hb d st sz]
    rfl

theorem c5_pruning_witness :
    ((minimize_tree (fun _ => ⟨0, 0, 0, ⟨0, 0, 0, 0⟩⟩) 1
        [("a.md".data, InNode.blob 7)] ⟨Cache.new, []⟩ Sizes.zero =
      Except.ok (none, ⟨Cache.new, []⟩, Sizes.zero)) ∧
     (¬ ("sub".data = themeName ∧ (1 : Nat) = 0)) ∧
     (minimizeEntries (fun _ => ⟨0, 0, 0, ⟨0, 0, 0, 0⟩⟩) 1
        [("sub".data, InNode.tree [("a.md".data, InNode.blob 7)])]
        ⟨Cache.new, []⟩ Sizes.zero =
      minimizeEntries (fun _ => ⟨0, 0, 0, ⟨0, 0, 0, 0⟩⟩) 1 []
        ⟨Cache.new, []⟩ Sizes.zero)) := by
  have hboring : ∀ name node,
      (name, node) ∈ [("a.md".data, InNode.blob 7)] →
      ∃ bid, node = InNode.blob bid ∧
        endsWith name htmlExt = false ∧ endsWith name pngExt = false ∧
        endsWith name jpgExt = false := by
    intro name node hmem
    rcases List.mem_singleton.mp hmem with heq
    injection heq with h1 h2
    subst h1
    subst h2
    exact ⟨7, rfl, by decide, by decide, by decide⟩
  have h1 := (c5_pruning (fun _ => ⟨0, 0, 0, ⟨0, 0, 0, 0⟩⟩) 2
    [("a.md".data, InNode.blob 7)] ⟨Cache.new, []⟩ Sizes.zero).2.2 hboring
  have h0 := (c5_pruning (fun _ => ⟨0, 0, 0, ⟨0, 0, 0, 0⟩⟩) 1
    [("a.md".data, InNode.blob 7)] ⟨Cache.new, []⟩ Sizes.zero).2.2 hboring
  refine ⟨h0, by decide, ?_⟩
  exact (c5_pruning (fun _ => ⟨0, 0, 0, ⟨0, 0, 0, 0⟩⟩) 1 []
    ⟨Cache.new, []⟩ Sizes.zero).2.1 "sub".data
    [("a.md".data, InNode.blob 7)] ⟨Cache.new, []⟩ Sizes.zero
    (by decide) h1

/-! ### Claim C6: root-scoped theme exclusion -/

/-- C6: a subdirectory entry named with the theme sentinel is skipped
entirely — no recursion, no output entry, no state or size change — exactly
when the current depth is 0; at every positive depth it is recursed into
with depth+1 like any other subdirectory and, when its transformation is
non-empty, preserved in the output under its original name with directory
permission bits. -/
theorem c6_theme_root_scoped (tf : Oid → MinifiedBlobs) (d : Nat)
    (sub rest : List (Name × InNode)) (st : BlobState) (sz : Sizes) :
    (d = 0 →
      minimizeEntries tf d ((themeName, InNode.tree sub) :: rest) st sz =
        minimizeEntries tf d rest st sz) ∧
    (d ≠ 0 →
      minimizeEntries tf d ((themeName, InNode.tree sub) :: rest) st sz =
        match minimize_tree tf (d + 1) sub st sz with
        | Except.error e => Except.error e
        | Except.ok (subRes, st1, sizes1) =>
          match minimizeEntries tf d rest st1 sizes1 with
          | Except.error e => Except.error e
          | Except.ok (tail, st2, sizes2) =>
            match subRes with
            | some built =>
              Except.ok ((themeName, filemode_directory, OutNode.tree built)
                :: tail, st2, sizes2)
            | none => Except.ok (tail, st2, sizes2)) := by
  constructor
  · intro h0
    rw [minimizeEntries_tree_eq, if_pos ⟨rfl, h0⟩]
  · intro hpos
    rw [minimizeEntries_tree_eq, if_neg (fun hc => hpos hc.2)]

theorem c6_theme_root_scoped_witness :
    ((0 : Nat) = 0 ∧
     minimizeEntries (fun _ => ⟨0, 0, 0, ⟨0, 0, 0, 0⟩⟩) 0
        [(themeName, InNode.tree [("a.png".data, InNode.blob 4)])]
        ⟨Cache.new, []⟩ Sizes.zero =
      minimizeEntries (fun _ => ⟨0, 0, 0, ⟨0, 0, 0, 0⟩⟩) 0 []
        ⟨Cache.new, []⟩ Sizes.zero) ∧
    ((1 : Nat) ≠ 0 ∧
     minimizeEntries (fun _ => ⟨0, 0, 0, ⟨0, 0, 0, 0⟩⟩) 1
        [(themeName, InNode.tree [("a.png".data, InNode.blob 4)])]
        ⟨Cache.new, []⟩ Sizes.zero =
      match minimize_tree (fun _ => ⟨0, 0, 0, ⟨0, 0, 0, 0⟩⟩) 2
          [("a.png".data, InNode.blob 4)] ⟨Cache.new, []⟩ Sizes.zero with
      | Except.error e => Except.error e
      | Except.ok (subRes, st1, sizes1) =>
        match minimizeEntries (fun _ => ⟨0, 0, 0, ⟨0, 0, 0, 0⟩⟩) 1 []
            st1 sizes1 with
        | Except.error e => Except.error e
        | Except.ok (tail, st2, sizes2) =>
          match subRes with
          | some built =>
            Except.ok ((themeName, filemode_directory, OutNode.tree built)
              :: tail, st2, sizes2)
          | none => Except.ok (tail, st2, sizes2)) :=
  ⟨⟨rfl, (c6_theme_root_scoped _ 0 _ [] ⟨Cache.new, []⟩ Sizes.zero).1 rfl⟩,
   ⟨one_ne_zero,
    (c6_theme_root_scoped _ 1 _ [] ⟨Cache.new, []⟩ Sizes.zero).2
      one_ne_zero⟩⟩

/-! ### Claim C7: html fan-out -/

/-- C7: for a blob entry whose name ends with the html extension, the walk
performs the memoized lookup and inserts exactly three entries — the
original name mapped to the minified oid, name + ".gz" to the gzip oid, and
name + ".br" to the brotli oid, all with regular-file permission bits — and
folds the record's sizes componentwise into the running total passed on to
the rest of the walk. -/
theorem c7_html_fanout (tf : Oid → MinifiedBlobs) (d : Nat) (name : Name)
    (id : Oid) (rest : List (Name × InNode)) (st : BlobState) (sz : Sizes)
    (h : endsWith name htmlExt = true) :
    minimizeEntries tf d ((name, InNode.blob id) :: rest) st sz =
      (match minimizeEntries tf d rest (minimize_blob_cached tf st id).2
          (sz + (minimize_blob_cached tf st id).1.sizes) with
      | Except.error e => Except.error e
      | Except.ok (tail, st2, sizes2) =>
        Except.ok
          ((name, filemode_regular,
              OutNode.blob (minimize_blob_cached tf st id).1.minified) ::
           (name ++ ".gz".data, filemode_regular,
              OutNode.blob (minimize_blob_cached tf st id).1.gz) ::
           (name ++ ".br".data, filemode_regular,
              OutNode.blob (minimize_blob_cached tf st id).1.br) :: tail,
           st2, sizes2)) ∧
    sz + (minimize_blob_cached tf st id).1.sizes =
      ⟨sz.original_len +
          (minimize_blob_cached tf st id).1.sizes.original_len,
        sz.minified_len +
          (minimize_blob_cached tf st id).1.sizes.minified_len,
        sz.gz_len + (minimize_blob_cached tf st id).1.sizes.gz_len,
        sz.br_len + (minimize_blob_cached tf st id).1.sizes.br_len⟩ := by
  obtain ⟨hp, hj⟩ := endsWith_html_not_image name h
  refine ⟨?_, rfl⟩
  rw [minimizeEntries_cons_blob_html tf d name id rest st sz h]
  cases hrest : minimizeEntries tf d rest (minimize_blob_cached tf st id).2
      (sz + (minimize_blob_cached tf st id).1.sizes) with
  | error e => rfl
  | ok r =>
    obtain ⟨tail, st2, sizes2⟩ := r
    simp [hp, hj, gzExt, brExt]

theorem c7_html_fanout_witness :
    endsWith "index.html".data htmlExt = true ∧
    (minimizeEntries (fun _ => ⟨21, 22, 23, ⟨9, 5, 3, 2⟩⟩) 0
        [("index.html".data, InNode.blob 77)] ⟨Cache.new, []⟩ Sizes.zero =
      match minimizeEntries (fun _ => ⟨21, 22, 23, ⟨9, 5, 3, 2⟩⟩) 0 []
          (minimize_blob_cached (fun _ => ⟨21, 22, 23, ⟨9, 5, 3, 2⟩⟩)
            ⟨Cache.new, []⟩ 77).2
          (Sizes.zero + (minimize_blob_cached (fun _ => ⟨21, 22, 23, ⟨9, 5, 3, 2⟩⟩)
            ⟨Cache.new, []⟩ 77).1.sizes) with
      | Except.error e => Except.error e
      | Except.ok (tail, st2, sizes2) =>
        Except.ok
          (("index.html".data, filemode_regular,
              OutNode.blob (minimize_blob_cached (fun _ => ⟨21, 22, 23, ⟨9, 5, 3, 2⟩⟩)
                ⟨Cache.new, []⟩ 77).1.minified) ::
           ("index.html".data ++ ".gz".data, filemode_regular,
              OutNode.blob (minimize_blob_cached (fun _ => ⟨21, 22, 23, ⟨9, 5, 3, 2⟩⟩)
                ⟨Cache.new, []⟩ 77).1.gz) ::
           ("index.html".data ++ ".br".data, filemode_regular,
              OutNode.blob (minimize_blob_cached (fun _ => ⟨21, 22, 23, ⟨9, 5, 3, 2⟩⟩)
                ⟨Cache.new, []⟩ 77).1.br) :: tail, st2, sizes2)) :=
  ⟨by decide,
    (c7_html_fanout (fun _ => ⟨21, 22, 23, ⟨9, 5, 3, 2⟩⟩) 0
      "index.html".data 77 [] ⟨Cache.new, []⟩ Sizes.zero (by decide)).1⟩

/-! ### Claim C10: image allow-list pass-through -/

/-- C10: a blob entry whose name does not end with ".html" is passed through
unchanged — same oid, same name, regular-file mode, no cache interaction —
exactly when its name ends with ".png" or ".jpg" (a case-sensitive suffix
match); any other such blob, including names ending in ".jpeg", ".gif" or
".PNG", is dropped from the output. -/
theorem c10_image_allowlist (tf : Oid → MinifiedBlobs) (d : Nat)
    (name : Name) (id : Oid) (rest : List (Name × InNode)) (st : BlobState)
    (sz : Sizes) (h : endsWith name htmlExt = false) :
    ((endsWith name pngExt || endsWith name jpgExt) = true →
      minimizeEntries tf d ((name, InNode.blob id) :: rest) st sz =
        match minimizeEntries tf d rest st sz with
        | Except.error e => Except.error e
        | Except.ok (tail, st2, sizes2) =>
          Except.ok ((name, filemode_regular, OutNode.blob id) :: tail,
            st2, sizes2)) ∧
    ((endsWith name pngExt || endsWith name jpgExt) = false →
      minimizeEntries tf d ((name, InNode.blob id) :: rest) st sz =
        minimizeEntries tf d rest st sz) ∧
    (endsWith "a.jpeg".data pngExt || endsWith "a.jpeg".data jpgExt) = false ∧
    (endsWith "a.gif".data pngExt || endsWith "a.gif".data jpgExt) = false ∧
    (endsWith "a.PNG".data pngExt || endsWith "a.PNG".data jpgExt) = false := by
  refine ⟨?_, ?_, by decide, by decide, by decide⟩
  · intro him
    rw [minimizeEntries_cons_blob_not_html tf d name id rest st sz h]
    cases hrest : minimizeEntries tf d rest st sz with
    | error e => rfl
    | ok r =>
      obtain ⟨tail, st2, sizes2⟩ := r
      simp [him]
  · intro him
    rw [minimizeEntries_cons_blob_not_html tf d name id rest st sz h]
    cases hrest : minimizeEntries tf d rest st sz with
    | error e => rfl
    | ok r =>
      obtain ⟨tail, st2, sizes2⟩ := r
      simp [him]

theorem c10_image_allowlist_witness :
    endsWith "a.png".data htmlExt = false ∧
    (endsWith "a.png".data pngExt || endsWith "a.png".data jpgExt) = true ∧
    (minimizeEntries (fun _ => ⟨0, 0, 0, ⟨0, 0, 0, 0⟩⟩) 0
        [("a.png".data, InNode.blob 5)] ⟨Cache.new, []⟩ Sizes.zero =
      match minimizeEntries (fun _ => ⟨0, 0, 0, ⟨0, 0, 0, 0⟩⟩) 0 []
          ⟨Cache.new, []⟩ Sizes.zero with
      | Except.error e => Except.error e
      | Except.ok (tail, st2, sizes2) =>
        Except.ok (("a.png".data, filemode_regular, OutNode.blob 5) :: tail,
          st2, sizes2)) ∧
    endsWith "a.jpeg".data htmlExt = false ∧
    (minimizeEntries (fun _ => ⟨0, 0, 0, ⟨0, 0, 0, 0⟩⟩) 0
        [("a.jpeg".data, InNode.blob 5)] ⟨Cache.new, []⟩ Sizes.zero =
      minimizeEntries (fun _ => ⟨0, 0, 0, ⟨0, 0, 0, 0⟩⟩) 0 []
        ⟨Cache.new, []⟩ Sizes.zero) :=
  ⟨by decide, by decide,
    (c10_image_allowlist (fun _ => ⟨0, 0, 0, ⟨0, 0, 0, 0⟩⟩) 0 "a.png".data 5
      [] ⟨Cache.new, []⟩ Sizes.zero (by decide)).1 (by decide),
    by decide,
    ((c10_image_allowlist (fun _ => ⟨0, 0, 0, ⟨0, 0, 0, 0⟩⟩) 0 "a.jpeg".data 5
      [] ⟨Cache.new, []⟩ Sizes.zero (by decide)).2.1 (by decide))⟩

/-! ### Facts about the memoized lookup -/

/-- Cache hit: the stored record is returned and nothing changes. -/
theorem minimize_blob_cached_hit (tf : Oid → MinifiedBlobs) (st : BlobState)
    (id : Oid) (r : MinifiedBlobs) (h : Cache.find? st.cache id = some r) :
    minimize_blob_cached tf st id = (r, st) := by
  rw [minimize_blob_cached]
  simp only [h]

/-- Cache miss: the transform runs, the record is inserted, and the
invocation is logged. -/
theorem minimize_blob_cached_miss (tf : Oid → MinifiedBlobs) (st : BlobState)
    (id : Oid) (h : Cache.find? st.cache id = none) :
    minimize_blob_cached tf st id =
      (tf id, ⟨Cache.insert st.cache id (tf id), st.calls ++ [id]⟩) := by
  rw [minimize_blob_cached]
  simp only [h]

/-- The memoized lookup's cache update and returned record depend only on
the cache, never on the ghost call log. -/
theorem minimize_blob_cached_calls (tf : Oid → MinifiedBlobs) (c : Cache)
    (calls : List Oid) (id : Oid) :
    minimize_blob_cached tf ⟨c, calls⟩ id =
      ((minimize_blob_cached tf ⟨c, []⟩ id).1,
       ⟨(minimize_blob_cached tf ⟨c, []⟩ id).2.cache,
        calls ++ (minimize_blob_cached tf ⟨c, []⟩ id).2.calls⟩) := by
  cases h : Cache.find? c id with
  | some r =>
    rw [minimize_blob_cached_hit tf ⟨c, calls⟩ id r h,
      minimize_blob_cached_hit tf ⟨c, []⟩ id r h]
    simp
  | none =>
    rw [minimize_blob_cached_miss tf ⟨c, calls⟩ id h,
      minimize_blob_cached_miss tf ⟨c, []⟩ id h]
    simp

/-- On a cache consistent with the transform, the memoized lookup returns
exactly the transform's record and preserves consistency. -/
theorem minimize_blob_cached_valid (tf : Oid → MinifiedBlobs)
    (st : BlobState) (id : Oid)
    (h : ∀ i r, Cache.find? st.cache i = some r → r = tf i) :
    (minimize_blob_cached tf st id).1 = tf id ∧
    (∀ i r, Cache.find? (minimize_blob_cached tf st id).2.cache i = some r →
      r = tf i) := by
  cases hf : Cache.find? st.cache id with
  | some r =>
    rw [minimize_blob_cached_hit tf st id r hf]
    exact ⟨h id r hf, h⟩
  | none =>
    rw [minimize_blob_cached_miss tf st id hf]
    refine ⟨rfl, ?_⟩
    intro i r hi
    rw [Cache.find?_insert] at hi
    by_cases hik : i = id
    · rw [if_pos hik] at hi
      rw [hik, Option.some.inj hi]
    · rw [if_neg hik] at hi
      exact h i r hi

/-- The memoized lookup preserves the instrumentation invariant: the call
log has no duplicates and every logged id is present in the cache. -/
theorem minimize_blob_cached_inv (tf : Oid → MinifiedBlobs) (st : BlobState)
    (id : Oid) (h1 : st.calls.Nodup)
    (h2 : ∀ i ∈ st.calls, (Cache.find? st.cache i).isSome) :
    (minimize_blob_cached tf st id).2.calls.Nodup ∧
    ∀ i ∈ (minimize_blob_cached tf st id).2.calls,
      (Cache.find? (minimize_blob_cached tf st id).2.cache i).isSome := by
  cases hf : Cache.find? st.cache id with
  | some r =>
    rw [minimize_blob_cached_hit tf st id r hf]
    exact ⟨h1, h2⟩
  | none =>
    rw [minimize_blob_cached_miss tf st id hf]
    constructor
    · rw [List.nodup_append]
      refine ⟨h1, List.nodup_singleton _, ?_⟩
      intro a ha hb
      rcases List.mem_singleton.mp hb with rfl
      have := h2 a ha
      rw [hf] at this
      exact Bool.noConfusion this
    · intro i hi
      rw [Cache.find?_insert]
      rcases List.mem_append.mp hi with hi2 | hi2
      · by_cases hik : i = id
        · rw [if_pos hik]
          rfl
        · rw [if_neg hik]
          exact h2 i hi2
      · rcases List.mem_singleton.mp hi2 with rfl
        rw [if_pos rfl]
        rfl

/-- The ghost call log is write-only: a run from any initial log equals the
run from the empty log with the initial log prepended, with identical
output, cache, and sizes. -/
theorem minimizeEntries_calls_shift (tf : Oid → MinifiedBlobs) :
    ∀ (entries : List (Name × InNode)) (d : Nat) (c : Cache)
      (calls : List Oid) (sz : Sizes),
      minimizeEntries tf d entries ⟨c, calls⟩ sz =
        (minimizeEntries tf d entries ⟨c, []⟩ sz).map
          (fun r => (r.1, ⟨r.2.1.cache, calls ++ r.2.1.calls⟩, r.2.2)) := by
  intro entries
  induction entries using entries_rec with
  | hnil =>
    intro d c calls sz
    rw [minimizeEntries_nil, minimizeEntries_nil]
    simp [Except.map]
  | hother name rest ih =>
    intro d c calls sz
    rw [minimizeEntries_cons_other, minimizeEntries_cons_other]
    rfl
  | hblob name id rest ih =>
    intro d c calls sz
    by_cases hh : endsWith name htmlExt
    · rw [minimizeEntries_cons_blob_html tf d name id rest ⟨c, calls⟩ sz hh,
        minimizeEntries_cons_blob_html tf d name id rest ⟨c, []⟩ sz hh]
      rw [minimize_blob_cached_calls tf c calls id]
      generalize minimize_blob_cached tf ⟨c, []⟩ id = m
      obtain ⟨b, c2, mc⟩ := m
      dsimp only
      rw [ih d c2 (calls ++ mc) (sz + b.sizes), ih d c2 mc (sz + b.sizes)]
      cases hr : minimizeEntries tf d rest ⟨c2, []⟩ (sz + b.sizes) with
      | error e => rfl
      | ok r =>
        obtain ⟨tail, ⟨cc, lc⟩, sz2⟩ := r
        simp [Except.map, List.append_assoc]
    · rw [minimizeEntries_cons_blob_not_html tf d name id rest ⟨c, calls⟩ sz
          (Bool.eq_false_iff.mpr hh),
        minimizeEntries_cons_blob_not_html tf d name id rest ⟨c, []⟩ sz
          (Bool.eq_false_iff.mpr hh)]
      rw [ih d c calls sz]
      cases hr : minimizeEntries tf d rest ⟨c, []⟩ sz with
      | error e => rfl
      | ok r =>
        obtain ⟨tail, ⟨cc, lc⟩, sz2⟩ := r
        simp [Except.map]
  | htree name sub rest ihsub ihrest =>
    intro d c calls sz
    by_cases hth : name = themeName ∧ d = 0
    · rw [minimizeEntries_cons_tree, if_pos hth,
        minimizeEntries_cons_tree, if_pos hth]
      exact ihrest d c calls sz
    · rw [minimizeEntries_cons_tree, if_neg hth,
        minimizeEntries_cons_tree, if_neg hth]
      rw [ihsub (d + 1) c calls sz]
      cases hsub : minimizeEntries tf (d + 1) sub ⟨c, []⟩ sz with
      | error e => rfl
      | ok r =>
        obtain ⟨built, ⟨cA, lA⟩, szA⟩ := r
        dsimp only [Except.map]
        rw [ihrest d cA (calls ++ lA) szA, ihrest d cA lA szA]
        cases hrest : minimizeEntries tf d rest ⟨cA, []⟩ szA with
        | error e => rfl
        | ok r2 =>
          obtain ⟨tail, ⟨cB, lB⟩, szB⟩ := r2
          by_cases hb : built.isEmpty <;>
            simp [Except.map, hb, List.append_assoc]

/-- A successful walk preserves cache consistency with the transform. -/
theorem minimizeEntries_valid_preserved (tf : Oid → MinifiedBlobs) :
    ∀ (entries : List (Name × InNode)) (d : Nat) (st : BlobState) (sz : Sizes)
      (out : List (Name × Nat × OutNode)) (st1 : BlobState) (sz1 : Sizes),
      minimizeEntries tf d entries st sz = Except.ok (out, st1, sz1) →
      (∀ i r, Cache.find? st.cache i = some r → r = tf i) →
      ∀ i r, Cache.find? st1.cache i = some r → r = tf i := by
  intro entries
  induction entries using entries_rec with
  | hnil =>
    intro d st sz out st1 sz1 he hv
    rw [minimizeEntries_nil] at he
    simp only [Except.ok.injEq, Prod.mk.injEq] at he
    obtain ⟨-, h2, -⟩ := he
    subst h2
    exact hv
  | hother name rest ih =>
    intro d st sz out st1 sz1 he hv
    rw [minimizeEntries_cons_other] at he
    exact Except.noConfusion he
  | hblob name id rest ih =>
    intro d st sz out st1 sz1 he hv
    by_cases hh : endsWith name htmlExt
    · rw [minimizeEntries_cons_blob_html tf d name id rest st sz hh] at he
      cases hrest : minimizeEntries tf d rest (minimize_blob_cached tf st id).2
          (sz + (minimize_blob_cached tf st id).1.sizes) with
      | error e =>
        simp only [hrest] at he
        exact Except.noConfusion he
      | ok r =>
        obtain ⟨tail, stB, szB⟩ := r
        simp only [hrest, Except.ok.injEq, Prod.mk.injEq] at he
        obtain ⟨-, h2, -⟩ := he
        subst h2
        exact ih d (minimize_blob_cached tf st id).2
          (sz + (minimize_blob_cached tf st id).1.sizes) tail stB szB hrest
          (minimize_blob_cached_valid tf st id hv).2
    · rw [minimizeEntries_cons_blob_not_html tf d name id rest st sz
        (Bool.eq_false_iff.mpr hh)] at he
      cases hrest : minimizeEntries tf d rest st sz with
      | error e =>
        simp only [hrest] at he
        exact Except.noConfusion he
      | ok r =>
        obtain ⟨tail, stB, szB⟩ := r
        simp only [hrest, Except.ok.injEq, Prod.mk.injEq] at he
        obtain ⟨-, h2, -⟩ := he
        subst h2
        exact ih d st sz tail stB szB hrest hv
  | htree name sub rest ihsub ihrest =>
    intro d st sz out st1 sz1 he hv
    rw [minimizeEntries_cons_tree] at he
    by_cases hth : name = themeName ∧ d = 0
    · rw [if_pos hth] at he
      exact ihrest d st sz out st1 sz1 he hv
    · rw [if_neg hth] at he
      cases hsub : minimizeEntries tf (d + 1) sub st sz with
      | error e =>
        simp only [hsub] at he
        exact Except.noConfusion he
      | ok r =>
        obtain ⟨built, stA, szA⟩ := r
        simp only [hsub] at he
        have hvA := ihsub (d + 1) st sz built stA szA hsub hv
        cases hrest : minimizeEntries tf d rest stA szA with
        | error e =>
          simp only [hrest] at he
          exact Except.noConfusion he
        | ok r2 =>
          obtain ⟨tail, stB, szB⟩ := r2
          simp only [hrest] at he
          have hvB := ihrest d stA szA tail stB szB hrest hvA
          by_cases hb : built.isEmpty
          · rw [if_pos hb] at he
            simp only [Except.ok.injEq, Prod.mk.injEq] at he
            obtain ⟨-, h2, -⟩ := he
            subst h2
            exact hvB
          · rw [if_neg hb] at he
            simp only [Except.ok.injEq, Prod.mk.injEq] at he
            obtain ⟨-, h2, -⟩ := he
            subst h2
            exact hvB

/-- Two runs from caches that are both consistent with the transform produce
the same output entries and the same size totals (memoization is
semantically transparent). -/
theorem minimizeEntries_valid_parallel (tf : Oid → MinifiedBlobs) :
    ∀ (entries : List (Name × InNode)) (d : Nat) (sz : Sizes)
      (st1 st2 : BlobState),
      (∀ i r, Cache.find? st1.cache i = some r → r = tf i) →
      (∀ i r, Cache.find? st2.cache i = some r → r = tf i) →
      (minimizeEntries tf d entries st1 sz).map (fun r => (r.1, r.2.2)) =
        (minimizeEntries tf d entries st2 sz).map (fun r => (r.1, r.2.2)) := by
  intro entries
  induction entries using entries_rec with
  | hnil =>
    intro d sz st1 st2 h1 h2
    rw [minimizeEntries_nil, minimizeEntries_nil]
    rfl
  | hother name rest ih =>
    intro d sz st1 st2 h1 h2
    rw [minimizeEntries_cons_other, minimizeEntries_cons_other]
  | hblob name id rest ih =>
    intro d sz st1 st2 h1 h2
    by_cases hh : endsWith name htmlExt
    · rw [minimizeEntries_cons_blob_html tf d name id rest st1 sz hh,
        minimizeEntries_cons_blob_html tf d name id rest st2 sz hh]
      have hv1 := minimize_blob_cached_valid tf st1 id h1
      have hv2 := minimize_blob_cached_valid tf st2 id h2
      rw [hv1.1, hv2.1]
      have heq := ih d (sz + (tf id).sizes)
        (minimize_blob_cached tf st1 id).2 (minimize_blob_cached tf st2 id).2
        hv1.2 hv2.2
      cases hr1 : minimizeEntries tf d rest (minimize_blob_cached tf st1 id).2
          (sz + (tf id).sizes) with
      | error e1 =>
        cases hr2 : minimizeEntries tf d rest
            (minimize_blob_cached tf st2 id).2 (sz + (tf id).sizes) with
        | error e2 =>
          simp only [hr1, hr2, Except.map] at heq ⊢
          exact heq
        | ok r2 =>
          simp only [hr1, hr2, Except.map] at heq
          exact Except.noConfusion heq
      | ok r1 =>
        cases hr2 : minimizeEntries tf d rest
            (minimize_blob_cached tf st2 id).2 (sz + (tf id).sizes) with
        | error e2 =>
          simp only [hr1, hr2, Except.map] at heq
          exact Except.noConfusion heq
        | ok r2 =>
          obtain ⟨tail1, stB1, szB1⟩ := r1
          obtain ⟨tail2, stB2, szB2⟩ := r2
          simp only [hr1, hr2, Except.map, Except.ok.injEq,
            Prod.mk.injEq] at heq
          obtain ⟨ht, hs⟩ := heq
          simp [Except.map, ht, hs]
    · rw [minimizeEntries_cons_blob_not_html tf d name id rest st1 sz
          (Bool.eq_false_iff.mpr hh),
        minimizeEntries_cons_blob_not_html tf d name id rest st2 sz
          (Bool.eq_false_iff.mpr hh)]
      have heq := ih d sz st1 st2 h1 h2
      cases hr1 : minimizeEntries tf d rest st1 sz with
      | error e1 =>
        cases hr2 : minimizeEntries tf d rest st2 sz with
        | error e2 =>
          simp only [hr1, hr2, Except.map] at heq ⊢
          exact heq
        | ok r2 =>
          simp only [hr1, hr2, Except.map] at heq
          exact Except.noConfusion heq
      | ok r1 =>
        cases hr2 : minimizeEntries tf d rest st2 sz with
        | error e2 =>
          simp only [hr1, hr2, Except.map] at heq
          exact Except.noConfusion heq
        | ok r2 =>
          obtain ⟨tail1, stB1, szB1⟩ := r1
          obtain ⟨tail2, stB2, szB2⟩ := r2
          simp only [hr1, hr2, Except.map, Except.ok.injEq,
            Prod.mk.injEq] at heq
          obtain ⟨ht, hs⟩ := heq
          simp [Except.map, ht, hs]
  | htree name sub rest ihsub ihrest =>
    intro d sz st1 st2 h1 h2
    by_cases hth : name = themeName ∧ d = 0
    · rw [minimizeEntries_cons_tree, if_pos hth,
        minimizeEntries_cons_tree, if_pos hth]
      exact ihrest d sz st1 st2 h1 h2
    · rw [minimizeEntries_cons_tree, if_neg hth,
        minimizeEntries_cons_tree, if_neg hth]
      have heqs := ihsub (d + 1) sz st1 st2 h1 h2
      cases hs1 : minimizeEntries tf (d + 1) sub st1 sz with
      | error e1 =>
        cases hs2 : minimizeEntries tf (d + 1) sub st2 sz with
        | error e2 =>
          simp only [hs1, hs2, Except.map] at heqs ⊢
          exact heqs
        | ok r2 =>
          simp only [hs1, hs2, Except.map] at heqs
          exact Except.noConfusion heqs
      | ok r1 =>
        cases hs2 : minimizeEntries tf (d + 1) sub st2 sz with
        | error e2 =>
          simp only [hs1, hs2, Except.map] at heqs
          exact Except.noConfusion heqs
        | ok r2 =>
          obtain ⟨built1, stA1, szA1⟩ := r1
          obtain ⟨built2, stA2, szA2⟩ := r2
          simp only [hs1, hs2, Except.map, Except.ok.injEq,
            Prod.mk.injEq] at heqs
          obtain ⟨hbeq, hszA⟩ := heqs
          subst hbeq
          subst hszA
          have hvA1 := minimizeEntries_valid_preserved tf sub (d + 1) st1 sz
            built1 stA1 szA1 hs1 h1
          have hvA2 := minimizeEntries_valid_preserved tf sub (d + 1) st2 sz
            built1 stA2 szA1 hs2 h2
          have heqr := ihrest d szA1 stA1 stA2 hvA1 hvA2
          dsimp only
          cases hr1 : minimizeEntries tf d rest stA1 szA1 with
          | error e1 =>
            cases hr2 : minimizeEntries tf d rest stA2 szA1 with
            | error e2 =>
              simp only [hr1, hr2, Except.map] at heqr ⊢
              exact heqr
            | ok r2 =>
              simp only [hr1, hr2, Except.map] at heqr
              exact Except.noConfusion heqr
          | ok r1 =>
            cases hr2 : minimizeEntries tf d rest stA2 szA1 with
            | error e2 =>
              simp only [hr1, hr2, Except.map] at heqr
              exact Except.noConfusion heqr
            | ok r2 =>
              obtain ⟨tail1, stB1, szB1⟩ := r1
              obtain ⟨tail2, stB2, szB2⟩ := r2
              simp only [hr1, hr2, Except.map, Except.ok.injEq,
                Prod.mk.injEq] at heqr
              obtain ⟨ht, hs⟩ := heqr
              by_cases hb : built1.isEmpty <;>
                simp [Except.map, hb, ht, hs]

/-- A successful walk preserves the instrumentation invariant: no duplicate
logged ids, and every logged id has a cache record. -/
theorem minimizeEntries_calls_inv (tf : Oid → MinifiedBlobs) :
    ∀ (entries : List (Name × InNode)) (d : Nat) (st : BlobState) (sz : Sizes)
      (out : List (Name × Nat × OutNode)) (st1 : BlobState) (sz1 : Sizes),
      minimizeEntries tf d entries st sz = Except.ok (out, st1, sz1) →
      st.calls.Nodup →
      (∀ i ∈ st.calls, (Cache.find? st.cache i).isSome) →
      st1.calls.Nodup ∧
        ∀ i ∈ st1.calls, (Cache.find? st1.cache i).isSome := by
  intro entries
  induction entries using entries_rec with
  | hnil =>
    intro d st sz out st1 sz1 he hn hc
    rw [minimizeEntries_nil] at he
    simp only [Except.ok.injEq, Prod.mk.injEq] at he
    obtain ⟨-, h2, -⟩ := he
    subst h2
    exact ⟨hn, hc⟩
  | hother name rest ih =>
    intro d st sz out st1 sz1 he hn hc
    rw [minimizeEntries_cons_other] at he
    exact Except.noConfusion he
  | hblob name id rest ih =>
    intro d st sz out st1 sz1 he hn hc
    by_cases hh : endsWith name htmlExt
    · rw [minimizeEntries_cons_blob_html tf d name id rest st sz hh] at he
      cases hrest : minimizeEntries tf d rest (minimize_blob_cached tf st id).2
          (sz + (minimize_blob_cached tf st id).1.sizes) with
      | error e =>
        simp only [hrest] at he
        exact Except.noConfusion he
      | ok r =>
        obtain ⟨tail, stB, szB⟩ := r
        simp only [hrest, Except.ok.injEq, Prod.mk.injEq] at he
        obtain ⟨-, h2, -⟩ := he
        subst h2
        have hstep := minimize_blob_cached_inv tf st id hn hc
        exact ih d (minimize_blob_cached tf st id).2
          (sz + (minimize_blob_cached tf st id).1.sizes) tail stB szB hrest
          hstep.1 hstep.2
    · rw [minimizeEntries_cons_blob_not_html tf d name id rest st sz
        (Bool.eq_false_iff.mpr hh)] at he
      cases hrest : minimizeEntries tf d rest st sz with
      | error e =>
        simp only [hrest] at he
        exact Except.noConfusion he
      | ok r =>
        obtain ⟨tail, stB, szB⟩ := r
        simp only [hrest, Except.ok.injEq, Prod.mk.injEq] at he
        obtain ⟨-, h2, -⟩ := he
        subst h2
        exact ih d st sz tail stB szB hrest hn hc
  | htree name sub rest ihsub ihrest =>
    intro d st sz out st1 sz1 he hn hc
    rw [minimizeEntries_cons_tree] at he
    by_cases hth : name = themeName ∧ d = 0
    · rw [if_pos hth] at he
      exact ihrest d st sz out st1 sz1 he hn hc
    · rw [if_neg hth] at he
      cases hsub : minimizeEntries tf (d + 1) sub st sz with
      | error e =>
        simp only [hsub] at he
        exact Except.noConfusion he
      | ok r =>
        obtain ⟨built, stA, szA⟩ := r
        simp only [hsub] at he
        have hiA := ihsub (d + 1) st sz built stA szA hsub hn hc
        cases hrest : minimizeEntries tf d rest stA szA with
        | error e =>
          simp only [hrest] at he
          exact Except.noConfusion he
        | ok r2 =>
          obtain ⟨tail, stB, szB⟩ := r2
          simp only [hrest] at he
          have hiB := ihrest d stA szA tail stB szB hrest hiA.1 hiA.2
          by_cases hb : built.isEmpty
          · rw [if_pos hb] at he
            simp only [Except.ok.injEq, Prod.mk.injEq] at he
            obtain ⟨-, h2, -⟩ := he
            subst h2
            exact hiB
          · rw [if_neg hb] at he
            simp only [Except.ok.injEq, Prod.mk.injEq] at he
            obtain ⟨-, h2, -⟩ := he
            subst h2
            exact hiB

/-! ### Claim C1: memoization, at most one transform per content id -/

/-- C1: the memoized lookup returns a cached record without invoking the
blob transform; on a miss it computes, inserts the record into the cache,
and logs the one invocation.  Over a whole run from an empty cache the
invocation log never repeats an id, and on a tree with two html blobs of
byte-identical content (same ContentId) at different paths the transform is
invoked exactly once and both fan-outs reference the same produced oids. -/
theorem c1_memoized_lookup (tf : Oid → MinifiedBlobs) :
    (∀ (st : BlobState) (id : Oid) (r : MinifiedBlobs),
      Cache.find? st.cache id = some r →
      minimize_blob_cached tf st id = (r, st)) ∧
    (∀ (st : BlobState) (id : Oid),
      Cache.find? st.cache id = none →
      minimize_blob_cached tf st id =
        (tf id, ⟨Cache.insert st.cache id (tf id), st.calls ++ [id]⟩)) ∧
    (∀ (d : Nat) (entries : List (Name × InNode)) (sz : Sizes)
      (out : List (Name × Nat × OutNode)) (st1 : BlobState) (sz1 : Sizes),
      minimizeEntries tf d entries ⟨Cache.new, []⟩ sz =
        Except.ok (out, st1, sz1) →
      st1.calls.Nodup) ∧
    (∀ (id : Oid) (n1 n2 : Name), endsWith n1 htmlExt = true →
      endsWith n2 htmlExt = true →
      minimizeEntries tf 0 [(n1, InNode.blob id), (n2, InNode.blob id)]
          ⟨Cache.new, []⟩ Sizes.zero =
        Except.ok
          ([(n1, filemode_regular, OutNode.blob (tf id).minified),
            (n1 ++ ".gz".data, filemode_regular, OutNode.blob (tf id).gz),
            (n1 ++ ".br".data, filemode_regular, OutNode.blob (tf id).br),
            (n2, filemode_regular, OutNode.blob (tf id).minified),
            (n2 ++ ".gz".data, filemode_regular, OutNode.blob (tf id).gz),
            (n2 ++ ".br".data, filemode_regular, OutNode.blob (tf id).br)],
           ⟨[(id, tf id)], [id]⟩,
           Sizes.zero + (tf id).sizes + (tf id).sizes)) := by
  refine ⟨minimize_blob_cached_hit tf, minimize_blob_cached_miss tf, ?_, ?_⟩
  · intro d entries sz out st1 sz1 he
    exact (minimizeEntries_calls_inv tf entries d ⟨Cache.new, []⟩ sz out st1
      sz1 he (List.nodup_nil) (fun i hi => absurd hi (List.not_mem_nil _))).1
  · intro id n1 n2 h1 h2
    obtain ⟨hp1, hj1⟩ := endsWith_html_not_image n1 h1
    obtain ⟨hp2, hj2⟩ := endsWith_html_not_image n2 h2
    have hm1 : minimize_blob_cached tf ⟨Cache.new, []⟩ id =
        (tf id, ⟨[(id, tf id)], [id]⟩) := by
      rw [minimize_blob_cached_miss tf ⟨Cache.new, []⟩ id rfl]
      rfl
    have hm2 : minimize_blob_cached tf ⟨[(id, tf id)], [id]⟩ id =
        (tf id, ⟨[(id, tf id)], [id]⟩) := by
      rw [minimize_blob_cached_hit tf ⟨[(id, tf id)], [id]⟩ id (tf id)
        (by rw [Cache.find?_cons, if_pos rfl])]
    rw [minimizeEntries_cons_blob_html tf 0 n1 id _ _ _ h1, hm1]
    dsimp only
    rw [minimizeEntries_cons_blob_html tf 0 n2 id _ _ _ h2, hm2]
    dsimp only
    rw [minimizeEntries_nil]
    simp [hp1, hj1, hp2, hj2]
    decide

theorem c1_memoized_lookup_witness :
    (Cache.find? [(5, (⟨1, 2, 3, ⟨4, 5, 6, 7⟩⟩ : MinifiedBlobs))] 5 =
      some ⟨1, 2, 3, ⟨4, 5, 6, 7⟩⟩ ∧
     minimize_blob_cached (fun _ => ⟨1, 2, 3, ⟨4, 5, 6, 7⟩⟩)
        ⟨[(5, ⟨1, 2, 3, ⟨4, 5, 6, 7⟩⟩)], []⟩ 5 =
      (⟨1, 2, 3, ⟨4, 5, 6, 7⟩⟩, ⟨[(5, ⟨1, 2, 3, ⟨4, 5, 6, 7⟩⟩)], []⟩)) ∧
    (Cache.find? Cache.new 5 = none ∧
     minimize_blob_cached (fun _ => ⟨1, 2, 3, ⟨4, 5, 6, 7⟩⟩)
        ⟨Cache.new, []⟩ 5 =
      (⟨1, 2, 3, ⟨4, 5, 6, 7⟩⟩,
       ⟨Cache.insert Cache.new 5 ⟨1, 2, 3, ⟨4, 5, 6, 7⟩⟩, [] ++ [5]⟩)) ∧
    (endsWith "a.html".data htmlExt = true ∧
     endsWith "b.html".data htmlExt = true ∧
     minimizeEntries (fun _ => ⟨1, 2, 3, ⟨4, 5, 6, 7⟩⟩) 0
        [("a.html".data, InNode.blob 9), ("b.html".data, InNode.blob 9)]
        ⟨Cache.new, []⟩ Sizes.zero =
      Except.ok
        ([("a.html".data, filemode_regular, OutNode.blob 1),
          ("a.html".data ++ ".gz".data, filemode_regular, OutNode.blob 2),
          ("a.html".data ++ ".br".data, filemode_regular, OutNode.blob 3),
          ("b.html".data, filemode_regular, OutNode.blob 1),
          ("b.html".data ++ ".gz".data, filemode_regular, OutNode.blob 2),
          ("b.html".data ++ ".br".data, filemode_regular, OutNode.blob 3)],
         ⟨[(9, ⟨1, 2, 3, ⟨4, 5, 6, 7⟩⟩)], [9]⟩,
         Sizes.zero + ⟨4, 5, 6, 7⟩ + ⟨4, 5, 6, 7⟩)) := by
  refine ⟨⟨by decide, (c1_memoized_lookup _).1 _ 5 _ (by decide)⟩,
    ⟨rfl, (c1_memoized_lookup _).2.1 ⟨Cache.new, []⟩ 5 rfl⟩,
    by decide, by decide, ?_⟩
  exact (c1_memoized_lookup (fun _ => ⟨1, 2, 3, ⟨4, 5, 6, 7⟩⟩)).2.2.2 9
    "a.html".data "b.html".data (by decide) (by decide)

/-- `minimize_tree` version of the ghost-log shift. -/
theorem minimize_tree_calls_shift (tf : Oid → MinifiedBlobs) (d : Nat)
    (entries : List (Name × InNode)) (c : Cache) (calls : List Oid)
    (sz : Sizes) :
    minimize_tree tf d entries ⟨c, calls⟩ sz =
      (minimize_tree tf d entries ⟨c, []⟩ sz).map
        (fun r => (r.1, ⟨r.2.1.cache, calls ++ r.2.1.calls⟩, r.2.2)) := by
  rw [minimize_tree, minimize_tree,
    minimizeEntries_calls_shift tf entries d c calls sz]
  cases hr : minimizeEntries tf d entries ⟨c, []⟩ sz with
  | error e => rfl
  | ok r =>
    obtain ⟨built, ⟨cc, lc⟩, sz2⟩ := r
    by_cases hb : built.isEmpty <;> simp [Except.map, hb]

/-- `minimize_tree` version of the valid-cache transparency. -/
theorem minimize_tree_valid_parallel (tf : Oid → MinifiedBlobs)
    (entries : List (Name × InNode)) (d : Nat) (sz : Sizes)
    (st1 st2 : BlobState)
    (h1 : ∀ i r, Cache.find? st1.cache i = some r → r = tf i)
    (h2 : ∀ i r, Cache.find? st2.cache i = some r → r = tf i) :
    (minimize_tree tf d entries st1 sz).map (fun r => (r.1, r.2.2)) =
      (minimize_tree tf d entries st2 sz).map (fun r => (r.1, r.2.2)) := by
  rw [minimize_tree, minimize_tree]
  have heq := minimizeEntries_valid_parallel tf entries d sz st1 st2 h1 h2
  cases hr1 : minimizeEntries tf d entries st1 sz with
  | error e1 =>
    cases hr2 : minimizeEntries tf d entries st2 sz with
    | error e2 =>
      simp only [hr1, hr2, Except.map, Except.error.injEq] at heq ⊢
      exact heq
    | ok r2 =>
      simp only [hr1, hr2, Except.map] at heq
      exact Except.noConfusion heq
  | ok r1 =>
    cases hr2 : minimizeEntries tf d entries st2 sz with
    | error e2 =>
      simp only [hr1, hr2, Except.map] at heq
      exact Except.noConfusion heq
    | ok r2 =>
      obtain ⟨built1, stB1, szB1⟩ := r1
      obtain ⟨built2, stB2, szB2⟩ := r2
      simp only [hr1, hr2, Except.map, Except.ok.injEq, Prod.mk.injEq] at heq
      obtain ⟨hbq, hsq⟩ := heq
      subst hbq
      subst hsq
      by_cases hb : built1.isEmpty <;> simp [Except.map, hb]

/-! ### Claim C2: determinism of the whole pipeline -/

/-- C2: for a fixed input tree, the transformation from an empty cache is a
pure function — running it twice yields the same result, and whenever two
such runs succeed they agree on the output tree, on the serialized cache
bytes, and on the size totals; the ghost instrumentation log has no
influence on any of these. -/
theorem c2_determinism (tf : Oid → MinifiedBlobs)
    (entries : List (Name × InNode)) :
    minimize_tree tf 0 entries ⟨Cache.new, []⟩ Sizes.zero =
      minimize_tree tf 0 entries ⟨Cache.new, []⟩ Sizes.zero ∧
    (∀ res1 st1 sz1 res2 st2 sz2,
      minimize_tree tf 0 entries ⟨Cache.new, []⟩ Sizes.zero =
        Except.ok (res1, st1, sz1) →
      minimize_tree tf 0 entries ⟨Cache.new, []⟩ Sizes.zero =
        Except.ok (res2, st2, sz2) →
      res1 = res2 ∧ Cache.serialize st1.cache = Cache.serialize st2.cache ∧
        sz1 = sz2) ∧
    (∀ calls1 calls2 : List Oid,
      (minimize_tree tf 0 entries ⟨Cache.new, calls1⟩ Sizes.zero).map
          (fun r => (r.1, r.2.1.cache, r.2.2)) =
        (minimize_tree tf 0 entries ⟨Cache.new, calls2⟩ Sizes.zero).map
          (fun r => (r.1, r.2.1.cache, r.2.2))) := by
  refine ⟨rfl, ?_, ?_⟩
  · intro res1 st1 sz1 res2 st2 sz2 hA hB
    rw [hA] at hB
    simp only [Except.ok.injEq, Prod.mk.injEq] at hB
    obtain ⟨e1, e2, e3⟩ := hB
    exact ⟨e1, by rw [e2], e3⟩
  · intro calls1 calls2
    rw [minimize_tree_calls_shift tf 0 entries Cache.new calls1 Sizes.zero,
      minimize_tree_calls_shift tf 0 entries Cache.new calls2 Sizes.zero]
    cases hr : minimize_tree tf 0 entries ⟨Cache.new, []⟩ Sizes.zero with
    | error e => rfl
    | ok r =>
      obtain ⟨res, ⟨cc, lc⟩, szz⟩ := r
      simp [Except.map]

theorem c2_determinism_witness :
    (minimize_tree (fun _ => ⟨1, 1, 1, ⟨1, 1, 1, 1⟩⟩) 0 []
        ⟨Cache.new, []⟩ Sizes.zero =
      Except.ok (none, ⟨Cache.new, []⟩, Sizes.zero)) ∧
    ((none : Option (List (Name × Nat × OutNode))) = none ∧
      Cache.serialize Cache.new = Cache.serialize Cache.new ∧
      Sizes.zero = Sizes.zero) := by
  have h0 : minimize_tree (fun _ => ⟨1, 1, 1, ⟨1, 1, 1, 1⟩⟩) 0 []
      ⟨Cache.new, []⟩ Sizes.zero =
      Except.ok (none, ⟨Cache.new, []⟩, Sizes.zero) := by
    rw [minimize_tree, minimizeEntries_nil]
    rfl
  exact ⟨h0, (c2_determinism _ []).2.1 none ⟨Cache.new, []⟩ Sizes.zero
    none ⟨Cache.new, []⟩ Sizes.zero h0 h0⟩

/-! ### Claim C4: cache load failure handling -/

/-- C4 counterexample: a readable cache file with a malformed header makes
`Cache::deserialize` panic (`assert_eq!`), so the run aborts instead of
substituting a fresh empty cache — contradicting the claim that no
cache-load condition aborts the run. -/
theorem c4_unparsable_aborts_counterexample :
    mainLoadCache (some ["oops".data]) =
      LoadOutcome.fatal "Invalid header row." ∧
    ∀ c, mainLoadCache (some ["oops".data]) ≠ LoadOutcome.ok c := by
  constructor
  · decide
  · intro c hc
    rw [show mainLoadCache (some ["oops".data]) =
        LoadOutcome.fatal "Invalid header row." from by decide] at hc
    exact LoadOutcome.noConfusion hc

/-- C4 (amended): an I/O failure loading the cache — file absent or
unreadable — falls back non-fatally to a fresh empty cache, and the run
then produces the same output tree and size totals as a run with any cache
consistent with the transform; a readable but unparsable cache file
(malformed header or data line), however, panics and aborts the run. -/
theorem c4_cache_load_fallback (tf : Oid → MinifiedBlobs) :
    mainLoadCache none = LoadOutcome.ok Cache.new ∧
    (∀ lines m, Cache.deserialize lines = Except.error m →
      mainLoadCache (some lines) = LoadOutcome.fatal m) ∧
    (∀ (entries : List (Name × InNode)) (d : Nat) (sz : Sizes) (c : Cache)
      (calls1 calls2 : List Oid),
      (∀ i r, Cache.find? c i = some r → r = tf i) →
      (minimize_tree tf d entries ⟨Cache.new, calls1⟩ sz).map
          (fun r => (r.1, r.2.2)) =
        (minimize_tree tf d entries ⟨c, calls2⟩ sz).map
          (fun r => (r.1, r.2.2))) := by
  refine ⟨rfl, ?_, ?_⟩
  · intro lines m hm
    simp only [mainLoadCache, hm]
  · intro entries d sz c calls1 calls2 hv
    exact minimize_tree_valid_parallel tf entries d sz ⟨Cache.new, calls1⟩
      ⟨c, calls2⟩ (fun i r h => Option.noConfusion h) hv

theorem c4_cache_load_fallback_witness :
    (Cache.deserialize ["x".data] = Except.error "Invalid header row." ∧
     mainLoadCache (some ["x".data]) =
       LoadOutcome.fatal "Invalid header row.") ∧
    ((∀ i r, Cache.find? [(3, (⟨1, 2, 3, ⟨4, 4, 4, 4⟩⟩ : MinifiedBlobs))] i =
        some r → r = (fun _ => (⟨1, 2, 3, ⟨4, 4, 4, 4⟩⟩ : MinifiedBlobs)) i) ∧
     (minimize_tree (fun _ => ⟨1, 2, 3, ⟨4, 4, 4, 4⟩⟩) 0
          [("a.html".data, InNode.blob 3)] ⟨Cache.new, []⟩ Sizes.zero).map
         (fun r => (r.1, r.2.2)) =
       (minimize_tree (fun _ => ⟨1, 2, 3, ⟨4, 4, 4, 4⟩⟩) 0
          [("a.html".data, InNode.blob 3)]
          ⟨[(3, ⟨1, 2, 3, ⟨4, 4, 4, 4⟩⟩)], []⟩ Sizes.zero).map
         (fun r => (r.1, r.2.2))) := by
  have hval : ∀ i r,
      Cache.find? [(3, (⟨1, 2, 3, ⟨4, 4, 4, 4⟩⟩ : MinifiedBlobs))] i =
        some r → r = (fun _ => (⟨1, 2, 3, ⟨4, 4, 4, 4⟩⟩ : MinifiedBlobs)) i := by
    intro i r h
    by_cases hi : i = 3
    · rw [Cache.find?_cons, if_pos hi] at h
      exact (Option.some.inj h).symm
    · rw [Cache.find?_cons, if_neg hi] at h
      exact Option.noConfusion h
  refine ⟨⟨by rfl, ?_⟩, hval, ?_⟩
  · exact (c4_cache_load_fallback (fun _ => ⟨1, 2, 3, ⟨4, 4, 4, 4⟩⟩)).2.1
      ["x".data] "Invalid header row." (by rfl)
  · exact (c4_cache_load_fallback (fun _ => ⟨1, 2, 3, ⟨4, 4, 4, 4⟩⟩)).2.2
      [("a.html".data, InNode.blob 3)] 0 Sizes.zero
      [(3, ⟨1, 2, 3, ⟨4, 4, 4, 4⟩⟩)] [] [] hval

/-! ### Claim C3: cache round trip -/

/-- C3: for every cache value (carrying the B-tree-map invariant of strictly
increasing keys), `save` (serialization) followed by `load`
(deserialization) succeeds and reproduces exactly the same cache: the same
key set and, for every key, a record with equal minified/gz/br oids and
equal sizes. -/
theorem c3_cache_round_trip (c : Cache) (hc : c.Sorted) :
    Cache.deserialize (Cache.serialize c) = Except.ok c :=
  deserialize_serialize c hc

theorem c3_cache_round_trip_witness :
    Cache.Sorted [(1, ⟨2, 3, 4, ⟨5, 6, 7, 8⟩⟩),
      (9, ⟨10, 11, 12, ⟨13, 14, 15, 16⟩⟩)] ∧
    Cache.deserialize (Cache.serialize [(1, ⟨2, 3, 4, ⟨5, 6, 7, 8⟩⟩),
        (9, ⟨10, 11, 12, ⟨13, 14, 15, 16⟩⟩)]) =
      Except.ok [(1, ⟨2, 3, 4, ⟨5, 6, 7, 8⟩⟩),
        (9, ⟨10, 11, 12, ⟨13, 14, 15, 16⟩⟩)] :=
  ⟨by decide, c3_cache_round_trip _ (by decide)⟩

/-! ### Claim C8: deterministic serialization format -/

/-- C8: `Cache::serialize` emits the fixed header line followed by exactly
one tab-separated line per entry with the fields in the order key,
original_len, minified_id, minified_len, gz_id, gz_len, br_id, br_len,
entries in strictly ascending key order under the ContentId total order;
consequently the serialized bytes are a pure function of the cache's
contents, independent of the order in which the entries were inserted. -/
theorem c8_serialize_format (c : Cache) (hc : c.Sorted) :
    Cache.serialize c = headerLine ::
      c.map (fun e => joinTab
        [renderNat e.1, renderNat e.2.sizes.original_len,
         renderNat e.2.minified, renderNat e.2.sizes.minified_len,
         renderNat e.2.gz, renderNat e.2.sizes.gz_len,
         renderNat e.2.br, renderNat e.2.sizes.br_len]) ∧
    List.Pairwise (fun a b => a < b) (c.map Prod.fst) ∧
    ∀ l1 l2 : List (Oid × MinifiedBlobs), l1.Perm l2 →
      (l1.map Prod.fst).Nodup →
      Cache.serialize (foldInsert l1) = Cache.serialize (foldInsert l2) := by
  refine ⟨rfl, List.Pairwise.map Prod.fst (fun a b h => h) hc, ?_⟩
  intro l1 l2 hp hnd
  have h1 : foldInsert l1 = foldInsert l2 := by
    apply Cache.ext_sorted _ _ (foldInsert_sorted l1) (foldInsert_sorted l2)
    intro k
    rw [find?_foldInsert l1 hnd k,
      find?_foldInsert l2 ((hp.map Prod.fst).nodup_iff.mp hnd) k]
    exact find?_perm l1 l2 hp hnd k
  rw [h1]

theorem c8_serialize_format_witness :
    Cache.Sorted [(1, ⟨2, 3, 4, ⟨5, 6, 7, 8⟩⟩)] ∧
    List.Perm [(3, (⟨20, 21, 22, ⟨23, 24, 25, 26⟩⟩ : MinifiedBlobs)),
        (2, ⟨30, 31, 32, ⟨33, 34, 35, 36⟩⟩)]
      [(2, ⟨30, 31, 32, ⟨33, 34, 35, 36⟩⟩),
        (3, ⟨20, 21, 22, ⟨23, 24, 25, 26⟩⟩)] ∧
    Cache.serialize (foldInsert
        [(3, ⟨20, 21, 22, ⟨23, 24, 25, 26⟩⟩),
         (2, ⟨30, 31, 32, ⟨33, 34, 35, 36⟩⟩)]) =
      Cache.serialize (foldInsert
        [(2, ⟨30, 31, 32, ⟨33, 34, 35, 36⟩⟩),
         (3, ⟨20, 21, 22, ⟨23, 24, 25, 26⟩⟩)]) :=
  ⟨by decide, by decide,
    (c8_serialize_format [(1, ⟨2, 3, 4, ⟨5, 6, 7, 8⟩⟩)] (by decide)).2.2
      _ _ (by decide) (by decide)⟩

end Minimizer
